import Mathlib

/-!
Shallow embedding of the Proxyon PII-masking span engine
(`src/finalised/pii_masker/`): `normalize.py`, `validators.py`,
`constants.py`, `masking.py` and the address-block part of
`regex_extractors.py`, together with theorems settling the frozen claims
about the specification.

Strings are modelled as `List Char` (Python `str` at the ASCII level used
by the code), confidence scores as `ℚ`, machine integers as `Nat`/`Int`.
Python dictionaries are modelled as insertion-ordered association lists,
which matches the iteration-order semantics the code relies on.
-/

namespace PII

/-! ### Character-level helpers (ASCII semantics of the Python builtins) -/

/-- Python `\s` / `str.strip()` whitespace at the ASCII level. -/
def isSpaceChar (c : Char) : Bool :=
  c = ' ' || c = '\t' || c = '\n' || c = '\x0d' || c = '\x0b' || c = '\x0c'

def isDigitChar (c : Char) : Bool :=
  '0' ≤ c && c ≤ '9'

def isUpperAZ (c : Char) : Bool :=
  'A' ≤ c && c ≤ 'Z'

def isLowerAZ (c : Char) : Bool :=
  'a' ≤ c && c ≤ 'z'

def isAlphaChar (c : Char) : Bool :=
  isUpperAZ c || isLowerAZ c

/-- Python regex `\w` (word character) at the ASCII level. -/
def isWordChar (c : Char) : Bool :=
  isAlphaChar c || isDigitChar c || c = '_'

/-- ASCII `str.lower` on a single character. -/
def lowerChar (c : Char) : Char :=
  if isUpperAZ c then Char.ofNat (c.toNat + 32) else c

/-- ASCII `str.upper` on a single character. -/
def upperChar (c : Char) : Char :=
  if isLowerAZ c then Char.ofNat (c.toNat - 32) else c

def lowerStr (s : List Char) : List Char := s.map lowerChar

def upperStr (s : List Char) : List Char := s.map upperChar

/-- Python `s.strip()`: drop leading and trailing whitespace. -/
def stripStr (s : List Char) : List Char :=
  ((s.dropWhile isSpaceChar).reverse.dropWhile isSpaceChar).reverse

/-- Python slice `text[a:b]` for `0 ≤ a ≤ b` (both sides clamp like Python). -/
def extract (s : List Char) (a b : Nat) : List Char :=
  (s.drop a).take (b - a)

/-- Decimal digit value of an ASCII digit character (`ord(ch) - 48`). -/
def digitVal (c : Char) : Nat := c.toNat - 48

/-- Value of a string of decimal digit characters, e.g. `int(s)`. -/
def digitsVal (s : List Char) : Nat :=
  s.foldl (fun acc c => acc * 10 + digitVal c) 0

/-- Decimal representation, fuelled for structural recursion (the fuel is
an upper bound on the digit count and never runs out at the call below). -/
def natCharsF : Nat → Nat → List Char
  | 0, _ => []
  | fuel + 1, n =>
    if n < 10 then [Char.ofNat (n + 48)]
    else natCharsF fuel (n / 10) ++ [Char.ofNat (n % 10 + 48)]

/-- Decimal representation of a natural number, e.g. `str(n)`. -/
def natChars (n : Nat) : List Char :=
  natCharsF (n + 1) n

/-- `p` is a prefix of `s`, decided by direct recursion. -/
def isPrefixChars : List Char → List Char → Bool
  | [], _ => true
  | _ :: _, [] => false
  | a :: t, b :: u => a = b && isPrefixChars t u

/-- `sub` occurs as a contiguous substring of `s` (Python `sub in s`). -/
def containsSub (s sub : List Char) : Bool :=
  if isPrefixChars sub s then true
  else match s with
    | [] => false
    | _ :: t => containsSub t sub

/-! ### Insertion-ordered association lists (Python `dict` semantics) -/

variable {α β : Type} [DecidableEq α]

/-- `d[k] = v`: update in place if the key exists, else append at the end.
This is exactly CPython dict assignment order semantics. -/
def aset (k : α) (v : β) : List (α × β) → List (α × β)
  | [] => [(k, v)]
  | (k', v') :: t => if k = k' then (k, v) :: t else (k', v') :: aset k v t

/-- `d.get(k)`: first (only) binding of `k`. -/
def aget (k : α) : List (α × β) → Option β
  | [] => none
  | (k', v') :: t => if k = k' then some v' else aget k t

/-- `d.get(k, dflt)`. -/
def agetD (k : α) (dflt : β) (l : List (α × β)) : β :=
  (aget k l).getD dflt

/-- `d.setdefault(k, v)`: insert only when absent. -/
def asetdefault (k : α) (v : β) (l : List (α × β)) : List (α × β) :=
  if (aget k l).isSome then l else l ++ [(k, v)]

end PII

namespace PII

/-! ### `normalize.py` -/

/-- Collapse every whitespace run to a single space
(`re.sub(r"\s+", " ", ·)`); the flag records whether the previous
character was whitespace. -/
def collapseWs : Bool → List Char → List Char
  | _, [] => []
  | inRun, c :: t =>
    if isSpaceChar c then
      if inRun then collapseWs true t else ' ' :: collapseWs true t
    else c :: collapseWs false t

/-- `norm_spaces`: strip, then collapse each whitespace run to one space. -/
def norm_spaces (s : List Char) : List Char :=
  collapseWs false (stripStr s)

/-- `norm_general`: lowercase, keep only `[a-z0-9]`. -/
def norm_general (s : List Char) : List Char :=
  (lowerStr (stripStr s)).filter (fun c => isLowerAZ c || isDigitChar c)

/-- `norm_digits`: keep only digits (`re.sub(r"\D+", "", s)`). -/
def norm_digits (s : List Char) : List Char :=
  s.filter isDigitChar

/-- `norm_sort_code`: keep only `[0-9]`. -/
def norm_sort_code (s : List Char) : List Char :=
  s.filter isDigitChar

/-- `norm_iban`: uppercase, strip, remove all whitespace. -/
def norm_iban (s : List Char) : List Char :=
  (stripStr (upperStr s)).filter (fun c => ¬ isSpaceChar c)

/-- `norm_phone`: strip, keep only digits and `+`. -/
def norm_phone (s : List Char) : List Char :=
  (stripStr s).filter (fun c => isDigitChar c || c = '+')

/-- `normalise_for_key(label, value)`. -/
def normalise_for_key (label : String) (value : List Char) : List Char :=
  let v := stripStr value
  if label = "UK_SORT_CODE" then norm_sort_code v
  else if label = "UK_ACCOUNT_NUMBER" then norm_digits v
  else if label = "UK_IBAN" then norm_iban v
  else if label = "CREDIT_CARD_NUMBER" then norm_digits v
  else if label = "CARD_EXPIRY" then norm_general v
  else if label = "UK_PHONE_NUMBER" then norm_phone v
  else if label = "EMAIL_ADDRESS" ∨ label = "IP_ADDRESS" then norm_general v
  else lowerStr (norm_spaces v)

/-! ### `validators.py` -/

/-- Luhn doubling step applied to the reversed digit list. -/
def luhnTotal : List Nat → Bool → Nat
  | [], _ => 0
  | d :: t, alt =>
    (if alt then (if d * 2 > 9 then d * 2 - 9 else d * 2) else d) + luhnTotal t (!alt)

/-- `luhn_check(number)`. -/
def luhn_check (number : List Char) : Bool :=
  let digits := norm_digits number
  if digits.length < 13 then false
  else luhnTotal (digits.reverse.map digitVal) false % 10 == 0

/-- Letter/digit conversion used by `iban_mod97`: digits stay, `A..Z`
become their two-digit value `A=10..Z=35`, anything else fails. -/
def ibanConvert : List Char → Option (List Char)
  | [] => some []
  | c :: t =>
    if isDigitChar c then (ibanConvert t).map (c :: ·)
    else if isUpperAZ c then
      (ibanConvert t).map (fun r => natChars (c.toNat - 'A'.toNat + 10) ++ r)
    else none

/-- The 9-digit chunk loop of `iban_mod97`, fuelled for structural
recursion (each step consumes 9 characters, so `converted.length` fuel
never runs out): `remainder = int(str(remainder) + chunk) % 97` over
successive chunks. -/
def ibanChunkLoopF : Nat → Nat → List Char → Nat
  | _, remainder, [] => remainder
  | 0, remainder, _ => remainder
  | fuel + 1, remainder, converted =>
    ibanChunkLoopF fuel (digitsVal (natChars remainder ++ converted.take 9) % 97)
      (converted.drop 9)

def ibanChunkLoop (remainder : Nat) (converted : List Char) : Nat :=
  ibanChunkLoopF converted.length remainder converted

/-- `iban_mod97(iban)`: `re.sub(r"\s+", "", iban).upper()`, length check,
move first 4 characters to the end, letter conversion, chunked mod 97. -/
def iban_mod97 (iban : List Char) : Bool :=
  let s := upperStr (iban.filter (fun c => ¬ isSpaceChar c))
  if s.length < 15 then false
  else
    let rearr := s.drop 4 ++ s.take 4
    match ibanConvert rearr with
    | none => false
    | some converted => ibanChunkLoop 0 converted == 1

/-- Spec-side form of the letter conversion of `iban_mod97` (digits stay,
letters become their two-digit `A=10..Z=35` value), total so that the
numeric value named by claim C7 can be stated. -/
def ibanExpand (s : List Char) : List Char :=
  s.foldr (fun c acc =>
    (if isDigitChar c then [c] else natChars (c.toNat - 'A'.toNat + 10)) ++ acc) []

/-- Spec-side characterisation named by claim C7: after removing all
whitespace and uppercasing, the string has at least 15 characters, every
character is a digit or `A`–`Z`, and the integer formed by moving the
first 4 characters to the end and replacing each letter by its value
leaves remainder 1 modulo 97. -/
def ibanSpecOk (s : List Char) : Prop :=
  let t := upperStr (s.filter fun c => ¬ isSpaceChar c)
  15 ≤ t.length ∧ (∀ c ∈ t, isDigitChar c = true ∨ isUpperAZ c = true) ∧
    digitsVal (ibanExpand (t.drop 4 ++ t.take 4)) % 97 = 1

/-- `apply_validators_and_adjust_score(label, value, base_score)`. -/
def apply_validators_and_adjust_score (label : String) (value : List Char)
    (base_score : ℚ) : ℚ :=
  let score := base_score
  let score := if label = "CREDIT_CARD_NUMBER" then
      (if luhn_check value then min 1 (score + 8/100) else max 0 (score - 15/100))
    else score
  let score := if label = "UK_IBAN" then
      (if iban_mod97 value then min 1 (score + 8/100) else max 0 (score - 20/100))
    else score
  let score := if label = "UK_SORT_CODE" then
      (if (norm_sort_code value).length = 6 then min 1 (score + 3/100)
       else max 0 (score - 10/100))
    else score
  let score := if label = "UK_ACCOUNT_NUMBER" then
      (if (norm_digits value).length = 8 then min 1 (score + 2/100)
       else max 0 (score - 10/100))
    else score
  score

/-! ### `constants.py` -/

/-- `CANON_LABELS` (= `ALLOWED_CANON`). -/
def CANON_LABELS : List String :=
  ["PERSON", "ORG",
   "EMAIL_ADDRESS", "UK_PHONE_NUMBER", "IP_ADDRESS",
   "DATE", "DATE_OF_BIRTH",
   "LOCATION", "UK_POSTCODE", "UK_ADDRESS",
   "UK_SORT_CODE", "UK_ACCOUNT_NUMBER", "UK_IBAN",
   "CREDIT_CARD_NUMBER", "CARD_EXPIRY",
   "TRANSACTION_ID", "CUSTOMER_REFERENCE", "SESSION_ID",
   "SUPPORT_TICKET_NUMBER", "ACCOUNT_ID", "INTERNAL_ID"]

/-- `PRIORITY.get(label, 0)`. -/
def PRIORITY (label : String) : Int :=
  if label = "UK_IBAN" then 120
  else if label = "CREDIT_CARD_NUMBER" then 115
  else if label = "UK_SORT_CODE" then 110
  else if label = "UK_ACCOUNT_NUMBER" then 108
  else if label = "CARD_EXPIRY" then 105
  else if label = "EMAIL_ADDRESS" then 95
  else if label = "IP_ADDRESS" then 95
  else if label = "UK_PHONE_NUMBER" then 92
  else if label = "UK_ADDRESS" then 88
  else if label = "UK_POSTCODE" then 85
  else if label = "TRANSACTION_ID" then 75
  else if label = "SUPPORT_TICKET_NUMBER" then 74
  else if label = "SESSION_ID" then 73
  else if label = "CUSTOMER_REFERENCE" then 72
  else if label = "ACCOUNT_ID" then 71
  else if label = "INTERNAL_ID" then 70
  else if label = "DATE_OF_BIRTH" then 55
  else if label = "DATE" then 50
  else if label = "PERSON" then 40
  else if label = "ORG" then 35
  else 0

/-! ### `masking.py`: span data model -/

/-- A candidate span, the dict `{start, end, label, score, source, original}`
threaded through `masking.py` (`stop` models the Python field `end`, which is
a reserved word in Lean); `tag` models the `"tag"` key added by
`assign_tags_and_mask`. -/
structure Span where
  start : Nat
  stop : Nat
  label : String
  score : ℚ
  source : String
  original : List Char
  tag : Option (List Char) := none
deriving DecidableEq, Repr

/-- `_PERSON_ALIAS_STOPWORDS`. -/
def PERSON_ALIAS_STOPWORDS : List (List Char) :=
  ["mr".toList, "mrs".toList, "ms".toList, "miss".toList, "dr".toList,
   "prof".toList, "sir".toList, "madam".toList, "lord".toList, "lady".toList,
   "jan".toList, "january".toList, "feb".toList, "february".toList,
   "mar".toList, "march".toList, "apr".toList, "april".toList, "may".toList,
   "jun".toList, "june".toList, "jul".toList, "july".toList, "aug".toList,
   "august".toList, "sep".toList, "sept".toList, "september".toList,
   "oct".toList, "october".toList, "nov".toList, "november".toList,
   "dec".toList, "december".toList,
   "customer".toList, "user".toList, "account".toList, "support".toList]

/-- Characters allowed after the leading letter by `_PERSON_TOKEN_RE`,
i.e. the class `[A-Za-z'\-]`. -/
def nameTokenChar (c : Char) : Bool :=
  isAlphaChar c || c = '\'' || c = '-'

/-- `_looks_like_name_token(s)`: strip, full-match `[A-Za-z][A-Za-z'\-]*`,
and reject stopwords. -/
def _looks_like_name_token (s : List Char) : Bool :=
  let t := stripStr s
  match t with
  | [] => false
  | c :: rest =>
    isAlphaChar c && rest.all nameTokenChar &&
      !(PERSON_ALIAS_STOPWORDS.contains (lowerStr t))

/-- `_PERSON_TOKEN_RE.findall`, fuelled for structural recursion (each
step consumes at least one character, so `length + 1` fuel never runs
out): maximal `[A-Za-z][A-Za-z'\-]*` matches, scanning left to right. -/
def personTokenFindallF : Nat → List Char → List (List Char)
  | 0, _ => []
  | _, [] => []
  | fuel + 1, c :: t =>
    if isAlphaChar c then
      (c :: t.takeWhile nameTokenChar) ::
        personTokenFindallF fuel (t.dropWhile nameTokenChar)
    else personTokenFindallF fuel t

def personTokenFindall (s : List Char) : List (List Char) :=
  personTokenFindallF (s.length + 1) s

/-- Python `t.strip("'\-")`: strips apostrophes, backslashes and hyphens
(the non-raw literal `"'\-"` contains a literal backslash). -/
def stripNameChar (c : Char) : Bool :=
  c = '\'' || c = '\\' || c = '-'

def stripChars (p : Char → Bool) (s : List Char) : List Char :=
  ((s.dropWhile p).reverse.dropWhile p).reverse

/-- De-duplicate, keeping first occurrences, keyed by lowercase. -/
def dedupLowerAux : List (List Char) → List (List Char) → List (List Char)
  | _, [] => []
  | seen, t :: rest =>
    let k := lowerStr t
    if seen.contains k then dedupLowerAux seen rest
    else t :: dedupLowerAux (seen ++ [k]) rest

/-- `_person_alias_tokens(full_name)`. -/
def _person_alias_tokens (full_name : List Char) : List (List Char) :=
  let tokens := personTokenFindall full_name
  match tokens with
  | [] => []
  | [_] => []
  | t1 :: t2 :: rest =>
    let lastTok := (t2 :: rest).getLast (List.cons_ne_nil _ _)
    let out := [t1, lastTok].foldl (fun acc t =>
      let n := lowerStr (stripChars stripNameChar t)
      if n.length < 3 then acc
      else if PERSON_ALIAS_STOPWORDS.contains n then acc
      else acc ++ [t]) []
    dedupLowerAux [] out

/-- `_span_overlaps_any(start, end, spans)`. -/
def _span_overlaps_any (start stop : Nat) (spans : List Span) : Bool :=
  spans.any fun s => !(decide (stop ≤ s.start) || decide (start ≥ s.stop))

/-! ### `masking.py`: `_merge_adjacent_person_spans`

The gap test on line 136 evaluates `re.fullmatch(r"[\s,\.-']*", gap)`.
That character class contains `\.-'`, a range running from `.` (0x2E) down
to `'` (0x27); compiling it raises `re.error("bad character range")` in
Python, so reaching this line always raises.  The embedding therefore
models the call as an `Except` failure, and the code after it (which is
unreachable in the source) is kept to mirror the source structure. -/

/-- `re.fullmatch(r"[\s,\.-']*", gap)`: always raises `re.error` because
the class contains the reversed range between `.` and the apostrophe. -/
def gapClassFullmatch (_gap : List Char) : Except String Bool :=
  .error "re.error: bad character range"

/-- Sort key of the pre-merge sort: `(int(s.start), -int(s.end))`. -/
def mergeKey (s : Span) : Int ×ₗ Int :=
  toLex ((s.start : Int), -(s.stop : Int))

def mergeLe (a b : Span) : Prop := mergeKey a ≤ mergeKey b

instance : DecidableRel mergeLe := fun a b =>
  inferInstanceAs (Decidable (mergeKey a ≤ mergeKey b))

instance : IsTotal Span mergeLe := ⟨fun a b => le_total (mergeKey a) (mergeKey b)⟩

instance : IsTrans Span mergeLe := ⟨fun _ _ _ => le_trans⟩

/-- The inner `while` of `_merge_adjacent_person_spans`: walks candidate
follow-on PERSON spans, returning the final `best_end`, `best_score` and
the number of spans merged in (`j - (i+1)`). -/
def mergeInner (text : List Char) (bestEnd : Nat) (bestScore : ℚ) (used : Nat) :
    List Span → Except String (Nat × ℚ × Nat)
  | [] => .ok (bestEnd, bestScore, 0)
  | nxt :: rest =>
    if used ≥ 4 then .ok (bestEnd, bestScore, 0)
    else if nxt.label ≠ "PERSON" then .ok (bestEnd, bestScore, 0)
    else if nxt.start < bestEnd then .ok (bestEnd, bestScore, 0)
    else
      let gap := extract text bestEnd nxt.start
      if gap.length > 4 then .ok (bestEnd, bestScore, 0)
      else do
        let gapOk ← gapClassFullmatch gap
        if !gapOk then .ok (bestEnd, bestScore, 0)
        else
          let nText := extract text nxt.start nxt.stop
          if !_looks_like_name_token nText then .ok (bestEnd, bestScore, 0)
          else do
            let (e, sc, k) ←
              mergeInner text nxt.stop (max bestScore nxt.score) (used + 1) rest
            .ok (e, sc, k + 1)

/-- The outer `while` of `_merge_adjacent_person_spans`, fuelled for
structural recursion (each step consumes at least one span, so
`length + 1` fuel never runs out). -/
def mergeOuterF (text : List Char) : Nat → List Span → Except String (List Span)
  | 0, _ => .ok []
  | _, [] => .ok []
  | fuel + 1, cur :: rest =>
    if cur.label ≠ "PERSON" then do
      let m ← mergeOuterF text fuel rest
      .ok (cur :: m)
    else if !_looks_like_name_token (extract text cur.start cur.stop) then do
      let m ← mergeOuterF text fuel rest
      .ok (cur :: m)
    else do
      let (bestEnd, bestScore, k) ← mergeInner text cur.stop cur.score 1 rest
      let m ← mergeOuterF text fuel (rest.drop k)
      if bestEnd ≠ cur.stop then
        .ok ({ start := cur.start, stop := bestEnd, label := "PERSON",
               score := bestScore,
               source := if cur.source = "gliner" then "gliner_merge" else cur.source,
               original := extract text cur.start bestEnd } :: m)
      else .ok (cur :: m)

def mergeOuter (text : List Char) (spans : List Span) : Except String (List Span) :=
  mergeOuterF text (spans.length + 1) spans

/-- `_merge_adjacent_person_spans(text, spans)`. -/
def _merge_adjacent_person_spans (text : List Char) (spans : List Span) :
    Except String (List Span) :=
  if spans = [] then .ok spans
  else mergeOuter text (List.insertionSort mergeLe spans)

/-! ### `masking.py`: `resolve_overlaps_spans` -/

/-- Sort key: `(-PRIORITY.get(label,0), -(end-start), -score, start)`. -/
def resolveKey (s : Span) : Int ×ₗ (Int ×ₗ (ℚ ×ₗ Int)) :=
  toLex (-(PRIORITY s.label),
    toLex (-((s.stop : Int) - (s.start : Int)),
      toLex (-s.score, (s.start : Int))))

def resolveLe (a b : Span) : Prop := resolveKey a ≤ resolveKey b

instance : DecidableRel resolveLe := fun a b =>
  inferInstanceAs (Decidable (resolveKey a ≤ resolveKey b))

instance : IsTotal Span resolveLe := ⟨fun a b => le_total (resolveKey a) (resolveKey b)⟩

instance : IsTrans Span resolveLe := ⟨fun _ _ _ => le_trans⟩

/-- Ascending-by-`start` order used for the final sort of the resolver. -/
def startLe (a b : Span) : Prop := a.start ≤ b.start

instance : DecidableRel startLe := fun a b =>
  inferInstanceAs (Decidable (a.start ≤ b.start))

instance : IsTotal Span startLe := ⟨fun a b => Nat.le_total a.start b.start⟩

instance : IsTrans Span startLe := ⟨fun _ _ _ => Nat.le_trans⟩

/-- The loop body of `resolve_overlaps_spans`: keep `s` iff it does not
character-overlap any already-kept span (half-open interval test
`not (s.end <= k.start or s.start >= k.end)`). -/
def greedyKeep (kept : List Span) (s : Span) : List Span :=
  if kept.any (fun k => !(decide (s.stop ≤ k.start) || decide (s.start ≥ k.stop))) then
    kept
  else kept ++ [s]

/-- The half-open non-overlap relation `s1.end ≤ s2.start ∨ s2.end ≤ s1.start`. -/
def sepSpans (a b : Span) : Prop :=
  a.stop ≤ b.start ∨ b.stop ≤ a.start

/-- `resolve_overlaps_spans(spans)`: greedy selection in descending
`(priority, length, score)` order (ascending `start` as tie-break),
output sorted ascending by `start`. -/
def resolve_overlaps_spans (spans : List Span) : List Span :=
  List.insertionSort startLe ((List.insertionSort resolveLe spans).foldl greedyKeep [])

/-! ### `masking.py`: `assign_tags_and_mask` -/

/-- The mutable run state of `assign_tags_and_mask`: `counters`,
`value_to_tag`, `mapping`, `scores` and `person_alias_to_tag`, all
insertion-ordered dictionaries. -/
structure AssignState where
  counters : List (String × Nat)
  valueToTag : List ((String × List Char) × List Char)
  mapping : List (List Char × List Char)
  scores : List (List Char × ℚ)
  personAlias : List (List Char × List Char)
deriving Repr

/-- The minted placeholder `f"[{label}_{counters[label]}]"`. -/
def mkTag (label : String) (n : Nat) : List Char :=
  '[' :: label.toList ++ '_' :: natChars n ++ [']']

/-- The non-alias path of the tag-assignment loop body (key lookup, mint,
score update, alias registration). -/
def assignKeyPath (st : AssignState) (s : Span) : AssignState × Span :=
  let label := s.label
  let original := s.original
  let key := (label, normalise_for_key label original)
  let minted :=
    match aget key st.valueToTag with
    | some t => (t, st)
    | none =>
      let c := agetD label 0 st.counters + 1
      let tag := mkTag label c
      (tag, { st with counters := aset label c st.counters,
                      valueToTag := aset key tag st.valueToTag,
                      mapping := aset tag original st.mapping })
  let tag := minted.1
  let st := minted.2
  let adj := apply_validators_and_adjust_score label original s.score
  let st := { st with scores := aset tag (max (agetD tag 0 st.scores) adj) st.scores }
  let st :=
    if label = "PERSON" then
      { st with personAlias :=
          ((_person_alias_tokens original).foldl
            (fun pa tok => asetdefault (normalise_for_key "PERSON" tok) tag pa)
            st.personAlias) }
    else st
  (st, { s with tag := some tag, score := adj })

/-- One iteration of the tag-assignment loop over a resolved span. -/
def assignOne (st : AssignState) (s : Span) : AssignState × Span :=
  if s.label = "PERSON" then
    match aget (normalise_for_key "PERSON" s.original) st.personAlias with
    | some tag =>
      let adj := apply_validators_and_adjust_score s.label s.original s.score
      ({ st with scores := aset tag (max (agetD tag 0 st.scores) adj) st.scores },
       { s with tag := some tag, score := adj })
    | none => assignKeyPath st s
  else assignKeyPath st s

/-- One iteration of the tagging loop as folded over the span list:
thread the state, append the tagged span. -/
def assignStep (acc : AssignState × List Span) (s : Span) : AssignState × List Span :=
  let r := assignOne acc.1 s
  (r.1, acc.2 ++ [r.2])

/-- Two spans covering the same character interval (the tagging loop
rewrites `tag`/`score` but never moves a span). -/
def sameExtent (a b : Span) : Prop :=
  a.start = b.start ∧ a.stop = b.stop

/-- A label string containing no decimal digit (true of every canonical
label), which makes `f"[{label}_{n}]"` parsing unambiguous. -/
def labelDigitFree (l : String) : Prop :=
  ∀ c ∈ l.data, isDigitChar c = false

/-- Invariant of the mutable state of the tagging loop: every
`value_to_tag` entry holds a tag minted for its own label with a counter
value at most the label's current counter; distinct keys hold distinct
tags; and every alias-index entry reuses a tag already recorded in
`value_to_tag` for a PERSON key. -/
def AssignInv (st : AssignState) : Prop :=
  (∀ k t, aget k st.valueToTag = some t →
    labelDigitFree k.1 ∧ ∃ n, 1 ≤ n ∧ n ≤ agetD k.1 0 st.counters ∧ t = mkTag k.1 n) ∧
  (∀ k k' t, aget k st.valueToTag = some t → aget k' st.valueToTag = some t → k = k') ∧
  (∀ p ∈ st.personAlias, ∃ k, aget k st.valueToTag = some (Prod.snd p) ∧
    Prod.fst k = "PERSON")

/-- Facts the tagging loop guarantees for every span it has processed:
the span carries a tag minted for its own label, and a non-PERSON span's
tag is exactly the `value_to_tag` entry of its `(label, key)`. -/
def SpanFacts (st : AssignState) (l : List Span) : Prop :=
  ∀ s ∈ l, ∃ t, s.tag = some t ∧ (∃ n, 1 ≤ n ∧ t = mkTag s.label n) ∧
    (s.label ≠ "PERSON" →
      aget (s.label, normalise_for_key s.label s.original) st.valueToTag = some t)

/-- Word-character status of `text[i]` (out of range counts as non-word). -/
def hasWordAt (text : List Char) (i : Nat) : Bool :=
  match text[i]? with
  | some c => isWordChar c
  | none => false

/-- Python regex `\b` at position `i`. -/
def boundaryAt (text : List Char) (i : Nat) : Bool :=
  (if i = 0 then false else hasWordAt text (i - 1)) != hasWordAt text i

/-- Case-insensitive whole-word match of the literal (lowercase) `pat`
at position `i`, i.e. `\b<pat>\b` with `re.IGNORECASE`. -/
def matchWBAt (text pat : List Char) (i : Nat) : Bool :=
  decide (lowerStr (extract text i (i + pat.length)) = pat) &&
    boundaryAt text i && boundaryAt text (i + pat.length)

/-- `pat.finditer(text)` for the word-bounded literal pattern: scan left to
right, jumping over matches. -/
def findWB (text pat : List Char) : Nat → Nat → List (Nat × Nat)
  | _, 0 => []
  | i, fuel + 1 =>
    if i > text.length then []
    else if matchWBAt text pat i then
      (i, i + pat.length) :: findWB text pat (i + pat.length) fuel
    else findWB text pat (i + 1) fuel

/-- Descending-length order on alias items (`key=lambda kv: -len(kv[0])`,
stable on ties like Python's sort). -/
def aliasLenLe (a b : List Char × List Char) : Prop :=
  b.1.length ≤ a.1.length

instance : DecidableRel aliasLenLe := fun a b =>
  inferInstanceAs (Decidable (b.1.length ≤ a.1.length))

instance : IsTotal (List Char × List Char) aliasLenLe :=
  ⟨fun a b => Nat.le_total b.1.length a.1.length⟩

instance : IsTrans (List Char × List Char) aliasLenLe :=
  ⟨fun _ _ _ h h' => Nat.le_trans h' h⟩

/-- One alias-occurrence step of the backfill sweep: skip the candidate
match when it overlaps any span accumulated so far, else append a
synthetic PERSON span carrying the alias's tag and current max score. -/
def backfillStep (text : List Char) (scores : List (List Char × ℚ))
    (tag : List Char) (sp : List Span) (m : Nat × Nat) : List Span :=
  if _span_overlaps_any m.1 m.2 sp then sp
  else sp ++ [{ start := m.1, stop := m.2, label := "PERSON",
                score := agetD tag 0 scores, source := "alias",
                original := extract text m.1 m.2, tag := some tag }]

/-- The deterministic alias-span sweep appended after the tagging loop. -/
def backfill (text : List Char) (scores : List (List Char × ℚ)) :
    List (List Char × List Char) → List Span → List Span
  | [], spans => spans
  | (aliasNorm, tag) :: items, spans =>
    if aliasNorm.length < 3 || PERSON_ALIAS_STOPWORDS.contains aliasNorm then
      backfill text scores items spans
    else
      let ms := findWB text aliasNorm 0 (text.length + 1)
      backfill text scores items (ms.foldl (backfillStep text scores tag) spans)

/-- Descending-by-`start` order of the rewriter
(`sorted(spans, key=lambda x: x["start"], reverse=True)`). -/
def startDescLe (a b : Span) : Prop := b.start ≤ a.start

instance : DecidableRel startDescLe := fun a b =>
  inferInstanceAs (Decidable (b.start ≤ a.start))

instance : IsTotal Span startDescLe := ⟨fun a b => Nat.le_total b.start a.start⟩

instance : IsTrans Span startDescLe := ⟨fun _ _ _ h h' => Nat.le_trans h' h⟩

/-- One replacement of the rewriter
(`masked_text[:start] + tag + masked_text[end:]`). -/
def maskStep (acc : List Char) (s : Span) : List Char :=
  acc.take s.start ++ s.tag.getD [] ++ acc.drop s.stop

/-- The rewriter: replace spans back to front. -/
def rewriteMask (text : List Char) (spans : List Span) : List Char :=
  (List.insertionSort startDescLe spans).foldl maskStep text

/-- `assign_tags_and_mask(text, spans)`: the tagging loop, the alias
backfill sweep, and the rewriter.  Returns
`(masked_text, mapping, scores, spans)`. -/
def assign_tags_and_mask (text : List Char) (spans : List Span) :
    List Char × List (List Char × List Char) × List (List Char × ℚ) × List Span :=
  let init : AssignState := ⟨[], [], [], [], []⟩
  let done := spans.foldl assignStep (init, [])
  let st := done.1
  let tagged := done.2
  let allSpans :=
    if st.personAlias ≠ [] then
      backfill text st.scores (List.insertionSort aliasLenLe st.personAlias) tagged
    else tagged
  (rewriteMask text allSpans, st.mapping, st.scores, allSpans)

/-- The core span-engine pipeline of `mask_with_gliner` downstream of
candidate collection: adjacent-PERSON merge, overlap resolution, tag
assignment (with the alias sweep) and rewriting. -/
def spanEngine (text : List Char) (spans : List Span) :
    Except String
      (List Char × List (List Char × List Char) × List (List Char × ℚ) × List Span) := do
  let merged ← _merge_adjacent_person_spans text spans
  .ok (assign_tags_and_mask text (resolve_overlaps_spans merged))

/-! ### `regex_extractors.py`: postcode search and address-block expansion -/

def isAlphaAt (t : List Char) (i : Nat) : Bool :=
  match t[i]? with
  | some c => isAlphaChar c
  | none => false

def isDigitAt (t : List Char) (i : Nat) : Bool :=
  match t[i]? with
  | some c => isDigitChar c
  | none => false

def isAlnumAt (t : List Char) (i : Nat) : Bool :=
  isAlphaAt t i || isDigitAt t i

/-- A match of `_UK_POSTCODE_RE` (with `re.IGNORECASE`) starting at
position `i`: `\b[A-Za-z]{1,2}\d[A-Za-z\d]?\s*\d[A-Za-z]{2}\b`.
The search is existential, so the quantifier choices are disjunctions;
the inner `\s*` is maximal-munch (a shorter run would leave a whitespace
character where a digit is required). -/
def postcodeMatchAt (t : List Char) (i : Nat) : Bool :=
  boundaryAt t i &&
  ([1, 2].any fun L =>
    (List.range L).all (fun j => isAlphaAt t (i + j)) &&
    isDigitAt t (i + L) &&
    ([0, 1].any fun opt =>
      (decide (opt = 0) || isAlnumAt t (i + L + 1)) &&
      (let j := i + L + 1 + opt
       let k := ((t.drop j).takeWhile isSpaceChar).length
       isDigitAt t (j + k) && isAlphaAt t (j + k + 1) && isAlphaAt t (j + k + 2) &&
       boundaryAt t (j + k + 3))))

/-- `_UK_POSTCODE_RE.search(t)` as a truth value. -/
def postcodeSearch (t : List Char) : Bool :=
  (List.range (t.length + 1)).any fun i => postcodeMatchAt t i

/-- `_ADDRESS_HINT_TOKENS`. -/
def ADDRESS_HINT_TOKENS : List (List Char) :=
  ["street".toList, "st".toList, "road".toList, "rd".toList,
   "avenue".toList, "ave".toList, "lane".toList, "ln".toList,
   "drive".toList, "dr".toList, "flat".toList, "apt".toList,
   "apartment".toList, "unit".toList, "building".toList, "house".toList,
   "uk".toList, "united kingdom".toList, "london".toList, "england".toList,
   "scotland".toList, "wales".toList]

/-- The shared tail of `_looks_like_address_component` (length cap and
the digit/comma/hint/postcode heuristics). -/
def addressComponentTail (s : List Char) : Bool :=
  if s.length > 160 then false
  else
    let lc := lowerStr s
    let has_digit := s.any isDigitChar
    let has_comma := s.contains ','
    let has_hint := ADDRESS_HINT_TOKENS.any fun tok => containsSub lc tok
    let has_postcode := postcodeSearch s
    if has_postcode then true
    else if has_digit && (has_comma || has_hint) then true
    else if has_hint && has_comma then true
    else false

/-- `_looks_like_address_component(line)`. -/
def _looks_like_address_component (line : List Char) : Bool :=
  if line = [] then false
  else
    let s := stripStr line
    if s = [] then false
    else
      match (List.range s.length).find? (fun i => s[i]? == some ':') with
      | some i =>
        if i ≤ 30 then
          let after := stripStr (s.drop (i + 1))
          if after = [] then false
          else
            let after_lc := lowerStr after
            if !(postcodeSearch after ||
                 (after.any isDigitChar && after.contains ',') ||
                 (ADDRESS_HINT_TOKENS.any (fun tok => containsSub after_lc tok) &&
                   after.contains ','))
            then false
            else addressComponentTail s
        else addressComponentTail s
      | none => addressComponentTail s

/-- `text.rfind("\n", 0, pos)`: largest index `< pos` holding `c`. -/
def rfindChar (text : List Char) (c : Char) (pos : Nat) : Option Nat :=
  (List.range pos).reverse.find? (fun i => text[i]? == some c)

/-- `text.find("\n", pos)`: smallest index `≥ pos` holding `c`. -/
def findCharFrom (text : List Char) (c : Char) (pos : Nat) : Option Nat :=
  (List.range' pos (text.length - pos)).find? (fun i => text[i]? == some c)

/-- `_line_bounds(text, pos)`. -/
def _line_bounds (text : List Char) (pos : Nat) : Nat × Nat :=
  let ls := match rfindChar text '\n' pos with
    | none => 0
    | some i => i + 1
  let le := (findCharFrom text '\n' pos).getD text.length
  (ls, le)

/-- The upward expansion loop of `_expand_to_address_block`, fuelled for
structural recursion (`lines_used` grows each step and is bounded by
`max_lines`, so `max_lines` fuel never runs out).  Returns the final
`(block_start, lines_used)`. -/
def expandUp (text : List Char) (maxLines : Nat) : Nat → Nat → Nat → Nat × Nat
  | 0, bs, lu => (bs, lu)
  | fuel + 1, bs, lu =>
    if lu < maxLines && decide (bs > 0) then
      let prevEnd := bs - 1
      let prevStart := match rfindChar text '\n' prevEnd with
        | none => 0
        | some i => i + 1
      let prevRaw := extract text prevStart prevEnd
      if stripStr prevRaw = [] then (bs, lu)
      else if !_looks_like_address_component prevRaw then (bs, lu)
      else expandUp text maxLines fuel prevStart (lu + 1)
    else (bs, lu)

/-- The downward expansion loop of `_expand_to_address_block`, fuelled
like `expandUp`.  Returns the final `block_end`. -/
def expandDown (text : List Char) (maxLines : Nat) : Nat → Nat → Nat → Nat
  | 0, be, _ => be
  | fuel + 1, be, lu =>
    if lu < maxLines && decide (be < text.length) then
      if text[be]? == some '\n' then
        let nextStart := be + 1
        let nextEnd := (findCharFrom text '\n' nextStart).getD text.length
        let nextRaw := extract text nextStart nextEnd
        if stripStr nextRaw = [] then be
        else if !_looks_like_address_component nextRaw then be
        else expandDown text maxLines fuel nextEnd (lu + 1)
      else be
    else be

/-- Case-insensitive literal match of the lowercase `word` at `i`. -/
def matchCI (ln : List Char) (i : Nat) (word : List Char) : Bool :=
  lowerStr (extract ln i (i + word.length)) == word

/-- Length of the whitespace run starting at `i` (greedy `\s*`). -/
def spacesFrom (ln : List Char) (i : Nat) : Nat :=
  ((ln.drop i).takeWhile isSpaceChar).length

/-- The optional keyword alternatives of the trim prefix regex. -/
def PREFIX_KEYWORDS : List (List Char) :=
  ["registered".toList, "billing".toList, "delivery".toList,
   "shipping".toList, "residential".toList, "home".toList, "office".toList]

/-- Matcher for the `\s*address\s*(?:is|:|\-|–|—)\s+` tail of the trim
prefix regex starting at `off` (each `\s*` is maximal-munch because the
following literal starts with a non-space; the alternation branches have
pairwise distinct first characters, so at most one applies). -/
def addressTailMatch (ln : List Char) (off : Nat) : Option Nat :=
  let w := spacesFrom ln off
  let p := off + w
  if matchCI ln p "address".toList then
    let w2 := spacesFrom ln (p + 7)
    let q := p + 7 + w2
    let afterAlt : Option Nat :=
      if matchCI ln q "is".toList then some (q + 2)
      else
        match (ln[q]?) with
        | some c =>
          if c = ':' || c = '-' || c = '–' || c = '—' then some (q + 1)
          else none
        | none => none
    match afterAlt with
    | none => none
    | some r =>
      let w3 := spacesFrom ln r
      if 1 ≤ w3 then some (r + w3) else none
  else none

/-- `prefix_re.match(first_line)`: leading whitespace, optional keyword
(backtracking to the empty alternative when the tail fails after it),
then the `address … ` tail; returns `m.end()`. -/
def prefixTrimEnd (ln : List Char) : Option Nat :=
  let ws1 := spacesFrom ln 0
  match PREFIX_KEYWORDS.findSome? (fun kw =>
      if matchCI ln ws1 kw then some kw.length else none) with
  | some klen =>
    match addressTailMatch ln (ws1 + klen) with
    | some e => some e
    | none => addressTailMatch ln ws1
  | none => addressTailMatch ln ws1

/-- `_expand_to_address_block(text, start, end, max_lines)` (the `end`
argument is unused by the source as well; the source default
`max_lines=4` is passed explicitly at call sites). -/
def _expand_to_address_block (text : List Char) (start _stop : Nat)
    (maxLines : Nat) : Option (Nat × Nat) :=
  if maxLines < 1 then none
  else
    let lb := _line_bounds text start
    let rawLine := extract text lb.1 lb.2
    if !_looks_like_address_component rawLine then none
    else
      let up := expandUp text maxLines maxLines lb.1 1
      let blockEnd := expandDown text maxLines maxLines lb.2 up.2
      let rawBlock0 := extract text up.1 blockEnd
      if stripStr rawBlock0 = [] then none
      else
        let firstLineEnd := ((List.range rawBlock0.length).find?
          (fun i => rawBlock0[i]? == some '\n')).getD rawBlock0.length
        let firstLine := rawBlock0.take firstLineEnd
        let blockStart := match prefixTrimEnd firstLine with
          | some e => up.1 + e
          | none => up.1
        let rawBlock := extract text blockStart blockEnd
        if stripStr rawBlock = [] then none
        else
          let candidate := stripStr rawBlock
          if !postcodeSearch candidate then none
          else if !candidate.any isDigitChar then none
          else if candidate.count ',' < 1 then none
          else if candidate.length > 260 then none
          else
            let leftWs := rawBlock.length - (rawBlock.dropWhile isSpaceChar).length
            let rightWs := rawBlock.length -
              ((rawBlock.reverse.dropWhile isSpaceChar).reverse).length
            some (blockStart + leftWs, blockEnd - rightWs)

/-- One postcode match of the `UK_ADDRESS` part of the postcode loop of
`extract_regex_spans_v1`: expand the match, skip blocks already seen,
emit a `UK_ADDRESS` span per new block. -/
def ukAddressStep (text : List Char) (acc : List (Nat × Nat) × List Span)
    (m : Nat × Nat) : List (Nat × Nat) × List Span :=
  match _expand_to_address_block text m.1 m.2 4 with
  | none => acc
  | some ab =>
    if ab ∈ acc.1 then acc
    else
      (acc.1 ++ [ab],
       acc.2 ++ [{ start := ab.1, stop := ab.2, label := "UK_ADDRESS",
                   score := 96/100, source := "regex",
                   original := extract text ab.1 ab.2 }])

/-- The `UK_ADDRESS` spans of `extract_regex_spans_v1`, parametrised by
the list of postcode matches `(m.start(), m.end())`. -/
def ukAddressSpansFor (text : List Char) (pcs : List (Nat × Nat)) : List Span :=
  (pcs.foldl (ukAddressStep text) ([], [])).2

/-! ### Claim C3: the tag substitution of the round-trip and its
decomposition into pieces -/

/-- One left-to-right pass of Python `s.replace(k, v)`, fuelled for
structural recursion (each step consumes at least one character of `s`
when `k` is non-empty, so `s.length` fuel never runs out). -/
def replaceAllF (k v : List Char) : Nat → List Char → List Char
  | _, [] => []
  | 0, s => s
  | fuel + 1, c :: s =>
    if isPrefixChars k (c :: s) && decide (k ≠ []) then
      v ++ replaceAllF k v fuel ((c :: s).drop k.length)
    else
      c :: replaceAllF k v fuel s

/-- Python `s.replace(k, v)`: replace every (non-overlapping, leftmost
first) occurrence of `k` in `s` by `v`. -/
def replaceAll (k v s : List Char) : List Char :=
  replaceAllF k v s.length s

/-- The substitution described by the spec: replace every occurrence of
each placeholder tag in the masked text by `mapping[tag]`, processing
longer tags first (`sorted(keys, key=len, reverse=True)`, stable). -/
def substTags (mapping : List (List Char × List Char)) (s : List Char) : List Char :=
  (List.insertionSort aliasLenLe mapping).foldl
    (fun acc kv => replaceAll kv.1 kv.2 acc) s

/-- A masked text decomposed into literal text segments and inserted
placeholder tags. -/
inductive Piece where
  | lit : List Char → Piece
  | ptag : List Char → Piece
deriving DecidableEq, Repr

/-- Flatten a piece decomposition back into a string. -/
def flatPieces : List Piece → List Char
  | [] => []
  | Piece.lit L :: rest => L ++ flatPieces rest
  | Piece.ptag t :: rest => t ++ flatPieces rest

/-- Effect of one `replace(k, v)` pass on a piece. -/
def replaceOne (k v : List Char) : Piece → Piece
  | Piece.lit L => Piece.lit L
  | Piece.ptag t => if t = k then Piece.lit v else Piece.ptag t

/-- Effect of the whole substitution on a piece. -/
def resolvePiece (m : List (List Char × List Char)) : Piece → Piece
  | Piece.lit L => Piece.lit L
  | Piece.ptag t =>
    match aget t m with
    | some v => Piece.lit v
    | none => Piece.ptag t

/-- A placeholder-shaped string: an opening bracket, an inner part free
of both brackets, a closing bracket. -/
def TagShape (t : List Char) : Prop :=
  ∃ mid, t = '[' :: mid ++ [']'] ∧ '[' ∉ mid ∧ ']' ∉ mid

/-- Well-formedness of a piece: literal segments contain no opening
bracket, tag pieces are placeholder-shaped. -/
def PieceWF : Piece → Prop
  | Piece.lit L => '[' ∉ L
  | Piece.ptag t => TagShape t

/-- The decomposition produced by the back-to-front rewriter on a
descending-by-start span list. -/
def piecesOf : List Char → List Span → List Piece
  | acc, [] => [Piece.lit acc]
  | acc, s :: rest =>
    piecesOf (acc.take s.start) rest ++
      [Piece.ptag (s.tag.getD []), Piece.lit (acc.drop s.stop)]

/-- Identity of two spans up to the fields the tagging loop may rewrite
(`tag` and `score`). -/
def spanKeeps (a b : Span) : Prop :=
  a.start = b.start ∧ a.stop = b.stop ∧ a.label = b.label ∧ a.original = b.original

/-- Shape invariant of the `mapping` dictionary: every entry's key is a
placeholder minted for a canonical label and every entry's value is a
slice of the input text; keys are unique. -/
def MapOK (text : List Char) (st : AssignState) : Prop :=
  (∀ p ∈ st.mapping,
    (∃ L n, 1 ≤ n ∧ Prod.fst p = mkTag L n ∧ L ∈ CANON_LABELS) ∧
    (∃ a b, b ≤ text.length ∧ Prod.snd p = extract text a b)) ∧
  (st.mapping.map Prod.fst).Nodup

/-- Text of the C3 counterexample run: the input text itself contains a
tag-shaped substring. -/
def c3Text : List Char := "see [PERSON_1], John".toList

/-- A single resolved PERSON span over the trailing `"John"` of
`c3Text`. -/
def c3Spans : List Span :=
  [{ start := 16, stop := 20, label := "PERSON", score := 9/10,
     source := "gliner", original := "John".toList }]

/-- Text of the C3 witness run. -/
def c3wText : List Char := "mail me: bob@x.com today".toList

/-- A single resolved EMAIL_ADDRESS span over the address in
`c3wText`. -/
def c3wSpans : List Span :=
  [{ start := 9, stop := 18, label := "EMAIL_ADDRESS", score := 9/10,
     source := "gliner", original := "bob@x.com".toList }]

/-! ## Claim C1: counterexample run -/

/-- Text of the C1 counterexample run. -/
def c1Text : List Char := "John, Alice John, John".toList

/-- An overlap-resolved (pairwise non-overlapping, sorted) PERSON span
list over `c1Text`: a bare `"John"`, then `"Alice John"`, then another
bare `"John"`. -/
def c1Spans : List Span :=
  [{ start := 0, stop := 4, label := "PERSON", score := 9/10,
     source := "gliner", original := "John".toList },
   { start := 6, stop := 16, label := "PERSON", score := 8/10,
     source := "gliner", original := "Alice John".toList },
   { start := 18, stop := 22, label := "PERSON", score := 7/10,
     source := "gliner", original := "John".toList }]

/-- Claim C1, counterexample: in the run over `c1Text`, the first span
(`"John"`, minted `[PERSON_1]`) and the third span (`"John"`, resolved
through the alias index registered by `"Alice John"` to `[PERSON_2]`)
share the key `(PERSON, "john")` yet receive different tags — so the
claim that equal keys always map to equal tags within a run is false. -/
theorem C1_counterexample :
    ¬ (∀ s1 ∈ (assign_tags_and_mask c1Text c1Spans).2.2.2,
       ∀ s2 ∈ (assign_tags_and_mask c1Text c1Spans).2.2.2,
        s1.label = s2.label →
        normalise_for_key s1.label s1.original =
          normalise_for_key s2.label s2.original →
        s1.tag = s2.tag) := by
  intro h
  have hout : (assign_tags_and_mask c1Text c1Spans).2.2.2 =
      [{ start := 0, stop := 4, label := "PERSON", score := 9/10,
         source := "gliner", original := "John".toList,
         tag := some "[PERSON_1]".toList },
       { start := 6, stop := 16, label := "PERSON", score := 8/10,
         source := "gliner", original := "Alice John".toList,
         tag := some "[PERSON_2]".toList },
       { start := 18, stop := 22, label := "PERSON", score := 7/10,
         source := "gliner", original := "John".toList,
         tag := some "[PERSON_2]".toList }] := by rfl
  have h1 := h
    { start := 0, stop := 4, label := "PERSON", score := 9/10,
      source := "gliner", original := "John".toList,
      tag := some "[PERSON_1]".toList }
    (by rw [hout]; exact List.Mem.head _)
    { start := 18, stop := 22, label := "PERSON", score := 7/10,
      source := "gliner", original := "John".toList,
      tag := some "[PERSON_2]".toList }
    (by rw [hout]; exact List.Mem.tail _ (List.Mem.tail _ (List.Mem.head _)))
    rfl rfl
  exact absurd h1 (by decide)

/-! ## Claim C2 -/

theorem sepSpans_symm : ∀ {a b : Span}, sepSpans a b → sepSpans b a :=
  fun h => h.symm

theorem greedyKeep_pairwise {acc : List Span} (s : Span)
    (h : acc.Pairwise sepSpans) : (greedyKeep acc s).Pairwise sepSpans := by
  unfold greedyKeep
  split_ifs with hy
  · exact h
  · rw [List.pairwise_append]
    refine ⟨h, List.pairwise_singleton _ _, ?_⟩
    intro x hx b hb
    rw [List.mem_singleton] at hb
    subst hb
    by_contra hsep
    apply hy
    rw [List.any_eq_true]
    refine ⟨x, hx, ?_⟩
    simp only [sepSpans, not_or, not_le] at hsep
    simp only [Bool.not_eq_true', Bool.or_eq_false_iff, decide_eq_false_iff_not,
      not_le, ge_iff_le]
    exact ⟨hsep.2, hsep.1⟩

theorem greedyFold_pairwise :
    ∀ (l acc : List Span), acc.Pairwise sepSpans →
      (l.foldl greedyKeep acc).Pairwise sepSpans
  | [], _, h => h
  | a :: l, acc, h =>
    greedyFold_pairwise l (greedyKeep acc a) (greedyKeep_pairwise a h)

theorem greedyFold_subset :
    ∀ (l acc : List Span) (x : Span), x ∈ l.foldl greedyKeep acc →
      x ∈ acc ∨ x ∈ l := by
  intro l
  induction l with
  | nil => intro acc x hx; exact Or.inl hx
  | cons a l ih =>
    intro acc x hx
    rcases ih (greedyKeep acc a) x hx with h | h
    · unfold greedyKeep at h
      split_ifs at h
      · exact Or.inl h
      · rcases List.mem_append.mp h with h | h
        · exact Or.inl h
        · rw [List.mem_singleton] at h
          exact Or.inr (h ▸ List.mem_cons_self a l)
    · exact Or.inr (List.mem_cons_of_mem a h)

/-- Claim C2: the output of `resolve_overlaps_spans` is pairwise
non-overlapping under the half-open test, is a subset of the input, and
is sorted ascending by `start`; acceptance is decided greedily over the
input sorted descending by `(priority, length, score)` with ascending
`start` as tie-break, which is exactly the definition of
`resolve_overlaps_spans`. -/
theorem C2_resolve_overlaps_spec (spans : List Span) :
    (resolve_overlaps_spans spans).Pairwise sepSpans ∧
    (∀ s ∈ resolve_overlaps_spans spans, s ∈ spans) ∧
    (resolve_overlaps_spans spans).Sorted startLe := by
  unfold resolve_overlaps_spans
  refine ⟨?_, ?_, ?_⟩
  · exact ((List.perm_insertionSort startLe _).pairwise_iff
      (fun h => sepSpans_symm h)).mpr
      (greedyFold_pairwise _ [] List.Pairwise.nil)
  · intro s hs
    have h1 : s ∈ (List.insertionSort resolveLe spans).foldl greedyKeep [] :=
      (List.perm_insertionSort startLe _).mem_iff.mp hs
    rcases greedyFold_subset _ [] s h1 with h | h
    · cases h
    · exact (List.perm_insertionSort resolveLe spans).mem_iff.mp h
  · exact List.sorted_insertionSort startLe _

/-! ## Claim C6 -/

/-- Claim C6, counterexample: `apply_validators_and_adjust_score` does NOT
return a value in `[0, 1]` for every base score — for any label outside
the four validated ones the base score passes through unchanged, so base
score `2` yields `2 > 1` (label `PERSON`, value `"x"`). -/
theorem C6_counterexample :
    apply_validators_and_adjust_score "PERSON" ['x'] 2 = 2 ∧
      ¬ apply_validators_and_adjust_score "PERSON" ['x'] 2 ≤ 1 := by
  constructor
  · rfl
  · intro h
    rw [show apply_validators_and_adjust_score "PERSON" ['x'] 2 = 2 from rfl] at h
    norm_num at h

/-- Claim C6 (amended): whenever the base score already lies in `[0, 1]`,
`apply_validators_and_adjust_score` returns a value in `[0, 1]`; and for
every label other than `CREDIT_CARD_NUMBER`, `UK_IBAN`, `UK_SORT_CODE`
and `UK_ACCOUNT_NUMBER` the returned score equals the base score
unchanged (for any base score). -/
theorem C6_adjust_score_clamped (label : String) (value : List Char) (s : ℚ) :
    (0 ≤ s → s ≤ 1 →
      0 ≤ apply_validators_and_adjust_score label value s ∧
        apply_validators_and_adjust_score label value s ≤ 1) ∧
    (label ≠ "CREDIT_CARD_NUMBER" → label ≠ "UK_IBAN" → label ≠ "UK_SORT_CODE" →
      label ≠ "UK_ACCOUNT_NUMBER" →
      apply_validators_and_adjust_score label value s = s) := by
  have hadd : ∀ t c : ℚ, 0 ≤ t → 0 ≤ c → 0 ≤ min 1 (t + c) ∧ min 1 (t + c) ≤ 1 :=
    fun t c h0 hc => ⟨le_min (by norm_num) (by linarith), min_le_left _ _⟩
  have hsub : ∀ t c : ℚ, t ≤ 1 → 0 ≤ c → 0 ≤ max 0 (t - c) ∧ max 0 (t - c) ≤ 1 :=
    fun t c h1 hc => ⟨le_max_left _ _, max_le (by norm_num) (by linarith)⟩
  have ecc : ∀ (v : List Char) (t : ℚ),
      apply_validators_and_adjust_score "CREDIT_CARD_NUMBER" v t =
        if luhn_check v then min 1 (t + 8/100) else max 0 (t - 15/100) :=
    fun _ _ => rfl
  have eib : ∀ (v : List Char) (t : ℚ),
      apply_validators_and_adjust_score "UK_IBAN" v t =
        if iban_mod97 v then min 1 (t + 8/100) else max 0 (t - 20/100) :=
    fun _ _ => rfl
  have esc : ∀ (v : List Char) (t : ℚ),
      apply_validators_and_adjust_score "UK_SORT_CODE" v t =
        if (norm_sort_code v).length = 6 then min 1 (t + 3/100)
        else max 0 (t - 10/100) :=
    fun _ _ => rfl
  have eac : ∀ (v : List Char) (t : ℚ),
      apply_validators_and_adjust_score "UK_ACCOUNT_NUMBER" v t =
        if (norm_digits v).length = 8 then min 1 (t + 2/100)
        else max 0 (t - 10/100) :=
    fun _ _ => rfl
  by_cases hcc : label = "CREDIT_CARD_NUMBER"
  · subst hcc
    refine ⟨fun h0 h1 => ?_, fun h _ _ _ => absurd rfl h⟩
    rw [ecc]
    split_ifs
    · exact hadd s _ h0 (by norm_num)
    · exact hsub s _ h1 (by norm_num)
  by_cases hib : label = "UK_IBAN"
  · subst hib
    refine ⟨fun h0 h1 => ?_, fun _ h _ _ => absurd rfl h⟩
    rw [eib]
    split_ifs
    · exact hadd s _ h0 (by norm_num)
    · exact hsub s _ h1 (by norm_num)
  by_cases hsc : label = "UK_SORT_CODE"
  · subst hsc
    refine ⟨fun h0 h1 => ?_, fun _ _ h _ => absurd rfl h⟩
    rw [esc]
    split_ifs
    · exact hadd s _ h0 (by norm_num)
    · exact hsub s _ h1 (by norm_num)
  by_cases hac : label = "UK_ACCOUNT_NUMBER"
  · subst hac
    refine ⟨fun h0 h1 => ?_, fun _ _ _ h => absurd rfl h⟩
    rw [eac]
    split_ifs
    · exact hadd s _ h0 (by norm_num)
    · exact hsub s _ h1 (by norm_num)
  have eo : apply_validators_and_adjust_score label value s = s := by
    simp only [apply_validators_and_adjust_score, if_neg hcc, if_neg hib,
      if_neg hsc, if_neg hac]
  rw [eo]
  exact ⟨fun h0 h1 => ⟨h0, h1⟩, fun _ _ _ _ => rfl⟩

/-- Claim C6, witness for the amended theorem at `label = "DATE"`,
`value = "x"`, base score `1/2`. -/
theorem C6_witness :
    0 ≤ apply_validators_and_adjust_score "DATE" ['x'] (1/2) ∧
      apply_validators_and_adjust_score "DATE" ['x'] (1/2) ≤ 1 :=
  (C6_adjust_score_clamped "DATE" ['x'] (1/2)).1 (by norm_num) (by norm_num)

/-! ## Claim C7 -/

theorem digitsVal_foldl (b : List Char) : ∀ x : Nat,
    b.foldl (fun acc c => acc * 10 + digitVal c) x =
      x * 10 ^ b.length + digitsVal b := by
  induction b with
  | nil => intro x; simp [digitsVal]
  | cons c b ih =>
    intro x
    show b.foldl _ (x * 10 + digitVal c) = _
    rw [ih]
    have h0 : digitsVal (c :: b) = digitVal c * 10 ^ b.length + digitsVal b := by
      show b.foldl _ (0 * 10 + digitVal c) = _
      rw [show 0 * 10 + digitVal c = digitVal c by omega, ih]
    rw [h0, List.length_cons, pow_succ]
    ring

theorem digitsVal_append (a b : List Char) :
    digitsVal (a ++ b) = digitsVal a * 10 ^ b.length + digitsVal b := by
  unfold digitsVal
  rw [List.foldl_append]
  exact digitsVal_foldl b _

theorem digitVal_digitChar (n : Nat) (h : n < 10) :
    digitVal (Char.ofNat (n + 48)) = n := by
  interval_cases n <;> decide

theorem digitsVal_natCharsF : ∀ (fuel n : Nat), n < fuel →
    digitsVal (natCharsF fuel n) = n := by
  intro fuel
  induction fuel with
  | zero => intro n h; omega
  | succ fuel ih =>
    intro n h
    unfold natCharsF
    split_ifs with h10
    · show digitsVal [Char.ofNat (n + 48)] = n
      have : digitsVal [Char.ofNat (n + 48)] = digitVal (Char.ofNat (n + 48)) := by
        simp [digitsVal]
      rw [this]
      exact digitVal_digitChar n h10
    · rw [digitsVal_append]
      have hdiv : n / 10 < fuel :=
        lt_of_lt_of_le (Nat.div_lt_self (by omega) (by omega)) (by omega)
      rw [ih (n / 10) hdiv]
      have h1 : digitsVal [Char.ofNat (n % 10 + 48)] =
          digitVal (Char.ofNat (n % 10 + 48)) := by simp [digitsVal]
      rw [h1, digitVal_digitChar _ (Nat.mod_lt _ (by omega))]
      simp only [List.length_singleton, pow_one]
      omega

theorem digitsVal_natChars (n : Nat) : digitsVal (natChars n) = n :=
  digitsVal_natCharsF _ _ (Nat.lt_succ_self n)

theorem ibanChunkLoopF_mod : ∀ (fuel r : Nat) (conv : List Char),
    conv.length ≤ 9 * fuel → r < 97 →
    ibanChunkLoopF fuel r conv = (r * 10 ^ conv.length + digitsVal conv) % 97 := by
  intro fuel
  induction fuel with
  | zero =>
    intro r conv hlen hr
    have hc : conv = [] := List.eq_nil_of_length_eq_zero (by omega)
    subst hc
    show r = (r * 10 ^ ([] : List Char).length + digitsVal []) % 97
    have hv : digitsVal ([] : List Char) = 0 := rfl
    rw [hv]
    simp [Nat.mod_eq_of_lt hr]
  | succ fuel ih =>
    intro r conv hlen hr
    cases conv with
    | nil =>
      show r = (r * 10 ^ ([] : List Char).length + digitsVal []) % 97
      have hv : digitsVal ([] : List Char) = 0 := rfl
      rw [hv]
      simp [Nat.mod_eq_of_lt hr]
    | cons c t =>
      show ibanChunkLoopF fuel
        (digitsVal (natChars r ++ (c :: t).take 9) % 97) ((c :: t).drop 9) = _
      rw [ih _ _ (by simp only [List.length_drop]; omega) (Nat.mod_lt _ (by omega))]
      have hmod :
          (digitsVal (natChars r ++ (c :: t).take 9) % 97) *
              10 ^ ((c :: t).drop 9).length + digitsVal ((c :: t).drop 9) ≡
            digitsVal (natChars r ++ (c :: t).take 9) *
              10 ^ ((c :: t).drop 9).length + digitsVal ((c :: t).drop 9) [MOD 97] :=
        ((Nat.mod_modEq _ 97).mul_right _).add_right _
      rw [hmod]
      congr 1
      rw [digitsVal_append, digitsVal_natChars]
      conv_rhs => rw [← List.take_append_drop 9 (c :: t)]
      rw [digitsVal_append, List.length_append, pow_add]
      ring

theorem ibanConvert_eq_some : ∀ s : List Char,
    (∀ c ∈ s, isDigitChar c = true ∨ isUpperAZ c = true) →
    ibanConvert s = some (ibanExpand s) := by
  intro s
  induction s with
  | nil => intro _; rfl
  | cons c t ih =>
    intro h
    have ht := ih fun x hx => h x (List.mem_cons_of_mem c hx)
    unfold ibanConvert
    by_cases hd : isDigitChar c = true
    · have he : ibanExpand (c :: t) = [c] ++ ibanExpand t := by
        show (if isDigitChar c = true then [c]
          else natChars (c.toNat - 'A'.toNat + 10)) ++ ibanExpand t = _
        rw [if_pos hd]
      rw [if_pos hd, ht, he]
      rfl
    · have hu : isUpperAZ c = true :=
        (h c (List.mem_cons_self c t)).resolve_left hd
      have he : ibanExpand (c :: t) =
          natChars (c.toNat - 'A'.toNat + 10) ++ ibanExpand t := by
        show (if isDigitChar c = true then [c]
          else natChars (c.toNat - 'A'.toNat + 10)) ++ ibanExpand t = _
        rw [if_neg hd]
      rw [if_neg hd, if_pos hu, ht, he]
      rfl

theorem ibanConvert_eq_none : ∀ s : List Char,
    ¬ (∀ c ∈ s, isDigitChar c = true ∨ isUpperAZ c = true) →
    ibanConvert s = none := by
  intro s
  induction s with
  | nil => intro h; exact absurd (by intro c hc; cases hc) h
  | cons c t ih =>
    intro h
    unfold ibanConvert
    by_cases hd : isDigitChar c = true
    · have ht : ¬ ∀ x ∈ t, isDigitChar x = true ∨ isUpperAZ x = true := by
        intro hall
        refine h fun x hx => ?_
        rcases List.mem_cons.mp hx with rfl | hx
        · exact Or.inl hd
        · exact hall x hx
      rw [if_pos hd, ih ht]
      rfl
    · by_cases hu : isUpperAZ c = true
      · have ht : ¬ ∀ x ∈ t, isDigitChar x = true ∨ isUpperAZ x = true := by
          intro hall
          refine h fun x hx => ?_
          rcases List.mem_cons.mp hx with rfl | hx
          · exact Or.inr hu
          · exact hall x hx
        rw [if_neg hd, if_pos hu, ih ht]
        rfl
      · rw [if_neg hd, if_neg hu]

/-- Claim C7: `iban_mod97` returns `true` iff, after removing all
whitespace and uppercasing, the input has at least 15 characters, every
character is a digit or `A`–`Z`, and the integer obtained by moving the
first 4 characters to the end and expanding letters as `A=10..Z=35`
leaves remainder 1 modulo 97 (the 9-digit-chunk loop computes exactly
that remainder); and the `UK_IBAN` validator adds `0.08` (capped at 1)
when valid and subtracts `0.20` (floored at 0) when invalid. -/
theorem C7_iban_mod97_spec :
    (∀ s : List Char, iban_mod97 s = true ↔ ibanSpecOk s) ∧
    (∀ (v : List Char) (base : ℚ), iban_mod97 v = true →
      apply_validators_and_adjust_score "UK_IBAN" v base = min 1 (base + 8/100)) ∧
    (∀ (v : List Char) (base : ℚ), iban_mod97 v = false →
      apply_validators_and_adjust_score "UK_IBAN" v base = max 0 (base - 20/100)) := by
  have eib : ∀ (v : List Char) (t : ℚ),
      apply_validators_and_adjust_score "UK_IBAN" v t =
        if iban_mod97 v then min 1 (t + 8/100) else max 0 (t - 20/100) :=
    fun _ _ => rfl
  refine ⟨?_, ?_, ?_⟩
  · intro s
    unfold iban_mod97 ibanSpecOk
    set t := upperStr (s.filter fun c => ¬ isSpaceChar c) with ht
    by_cases hlen : t.length < 15
    · simp only [if_pos hlen]
      constructor
      · intro h; cases h
      · intro h; omega
    · simp only [if_neg hlen]
      set rearr := t.drop 4 ++ t.take 4 with hre
      have hmem : ∀ c : Char, c ∈ rearr ↔ c ∈ t := by
        intro c
        rw [hre, List.mem_append, Or.comm, ← List.mem_append, List.take_append_drop]
      by_cases hall : ∀ c ∈ rearr, isDigitChar c = true ∨ isUpperAZ c = true
      · rw [ibanConvert_eq_some rearr hall]
        show (ibanChunkLoop 0 (ibanExpand rearr) == 1) = true ↔ _
        have hloop : ibanChunkLoop 0 (ibanExpand rearr) =
            digitsVal (ibanExpand rearr) % 97 := by
          unfold ibanChunkLoop
          rw [ibanChunkLoopF_mod _ 0 _ (by omega) (by omega)]
          simp
        rw [beq_iff_eq, hloop]
        constructor
        · intro h
          exact ⟨by omega, fun c hc => hall c ((hmem c).mpr hc), h⟩
        · intro h
          exact h.2.2
      · rw [ibanConvert_eq_none rearr hall]
        simp only [Bool.false_eq_true, false_iff]
        intro h
        exact hall fun c hc => h.2.1 c ((hmem c).mp hc)
  · intro v base h
    rw [eib, if_pos h]
  · intro v base h
    rw [eib, if_neg]
    simp [h]

/-- Claim C7, witness: both directions of the characterisation and the
score boost evaluated at the concrete valid IBAN
`GB29NWBK60161331926819` with base score `1/2`. -/
theorem C7_witness :
    ibanSpecOk "GB29NWBK60161331926819".toList ∧
      apply_validators_and_adjust_score "UK_IBAN"
        "GB29NWBK60161331926819".toList (1/2) = min 1 (1/2 + 8/100) :=
  ⟨(C7_iban_mod97_spec.1 "GB29NWBK60161331926819".toList).mp (by decide),
   C7_iban_mod97_spec.2.1 "GB29NWBK60161331926819".toList (1/2) (by decide)⟩

/-! ## Claim C8 -/

/-- Claim C8: the Luhn-valid card number `4111111111111111` receives a
strictly greater adjusted score than the Luhn-invalid `4111111111111112`
at the same base score `0.5`; in general the `CREDIT_CARD_NUMBER`
validator adds `0.08` (capped at 1) when the Luhn check passes and
subtracts `0.15` (floored at 0) when it fails, and any value with fewer
than 13 digits fails the Luhn check. -/
theorem C8_luhn_monotonicity :
    (apply_validators_and_adjust_score "CREDIT_CARD_NUMBER"
        "4111111111111112".toList (1/2) <
      apply_validators_and_adjust_score "CREDIT_CARD_NUMBER"
        "4111111111111111".toList (1/2)) ∧
    (∀ v s, luhn_check v = true →
      apply_validators_and_adjust_score "CREDIT_CARD_NUMBER" v s =
        min 1 (s + 8/100)) ∧
    (∀ v s, luhn_check v = false →
      apply_validators_and_adjust_score "CREDIT_CARD_NUMBER" v s =
        max 0 (s - 15/100)) ∧
    (∀ v, (norm_digits v).length < 13 → luhn_check v = false) := by
  have ecc : ∀ (v : List Char) (t : ℚ),
      apply_validators_and_adjust_score "CREDIT_CARD_NUMBER" v t =
        if luhn_check v then min 1 (t + 8/100) else max 0 (t - 15/100) :=
    fun _ _ => rfl
  refine ⟨?_, ?_, ?_, ?_⟩
  · rw [ecc, ecc, if_neg (by decide), if_pos (by decide)]
    rw [max_eq_right (by norm_num), min_eq_right (by norm_num)]
    norm_num
  · intro v s h
    rw [ecc, if_pos h]
  · intro v s h
    rw [ecc, if_neg]
    simp [h]
  · intro v h
    simp only [luhn_check]
    rw [if_pos h]

/-- Claim C8, witness: the validity branch evaluated at the concrete
Luhn-valid number and base score 1. -/
theorem C8_witness :
    apply_validators_and_adjust_score "CREDIT_CARD_NUMBER"
        "4111111111111111".toList 1 = min 1 (1 + 8/100) :=
  C8_luhn_monotonicity.2.1 "4111111111111111".toList 1 (by decide)

/-! ## Claim C5 -/

/-- Claim C5: the adjacent-PERSON merge never performs the documented
merge — the gap test `re.fullmatch(r"[\s,\.-']*", gap)` contains the
reversed character range `\.-'` and raises `re.error` as soon as two
nearby PERSON spans are examined.  Evaluated at the failing input
`"Hannah Mercer"` with PERSON spans `[0,6)` and `[7,13)`, the function
raises instead of merging them into one `"Hannah Mercer"` span. -/
theorem C5_merge_raises :
    _merge_adjacent_person_spans "Hannah Mercer".toList
      [{ start := 0, stop := 6, label := "PERSON", score := 9/10,
         source := "gliner", original := "Hannah".toList },
       { start := 7, stop := 13, label := "PERSON", score := 85/100,
         source := "gliner", original := "Mercer".toList }] =
      .error "re.error: bad character range" := by
  rfl

/-! ## Claim C4 -/

/-- Claim C4: the core span-engine pipeline is NOT exception-free on
well-formed inputs — on the text `"John Smith"` with two well-formed
PERSON candidate spans (offsets in range, canonical labels, numeric
scores) the adjacent-PERSON merge step raises `re.error` (see C5), so
the whole pipeline raises instead of degrading gracefully. -/
theorem C4_pipeline_raises :
    spanEngine "John Smith".toList
      [{ start := 0, stop := 4, label := "PERSON", score := 9/10,
         source := "gliner", original := "John".toList },
       { start := 5, stop := 10, label := "PERSON", score := 8/10,
         source := "gliner", original := "Smith".toList }] =
      .error "re.error: bad character range" := by
  rfl

/-! ## Claim C9: bounds of the expansion and the strip arithmetic -/

theorem rfindChar_spec {text : List Char} {c : Char} {pos i : Nat}
    (h : rfindChar text c pos = some i) : i < pos ∧ i < text.length := by
  unfold rfindChar at h
  have hmem := List.mem_of_find?_eq_some h
  rw [List.mem_reverse, List.mem_range] at hmem
  have hpred := List.find?_some h
  simp only [beq_iff_eq] at hpred
  obtain ⟨hlt, -⟩ := List.getElem?_eq_some.mp hpred
  exact ⟨hmem, hlt⟩

theorem findCharFrom_spec {text : List Char} {c : Char} {pos i : Nat}
    (h : findCharFrom text c pos = some i) : pos ≤ i ∧ i < text.length := by
  unfold findCharFrom at h
  have hmem := List.mem_of_find?_eq_some h
  rw [List.mem_range'] at hmem
  obtain ⟨k, -, hik⟩ := hmem
  have hpred := List.find?_some h
  simp only [beq_iff_eq] at hpred
  obtain ⟨hlt, -⟩ := List.getElem?_eq_some.mp hpred
  exact ⟨by omega, hlt⟩

theorem lineBounds_spec (text : List Char) (pos : Nat) :
    (_line_bounds text pos).1 ≤ (_line_bounds text pos).2 ∧
    (_line_bounds text pos).2 ≤ text.length := by
  unfold _line_bounds
  dsimp only
  cases hr : rfindChar text '\n' pos with
  | none =>
    cases hf : findCharFrom text '\n' pos with
    | none => exact ⟨Nat.zero_le _, le_refl _⟩
    | some m =>
      obtain ⟨hm1, hm2⟩ := findCharFrom_spec hf
      exact ⟨Nat.zero_le _, le_of_lt hm2⟩
  | some k =>
    obtain ⟨hk1, hk2⟩ := rfindChar_spec hr
    cases hf : findCharFrom text '\n' pos with
    | none => exact ⟨hk2, le_refl _⟩
    | some m =>
      obtain ⟨hm1, hm2⟩ := findCharFrom_spec hf
      exact ⟨le_trans hk1 hm1, le_of_lt hm2⟩

theorem expandUp_le (text : List Char) (ml : Nat) :
    ∀ fuel bs lu, (expandUp text ml fuel bs lu).1 ≤ bs := by
  intro fuel
  induction fuel with
  | zero => intro bs lu; exact le_refl bs
  | succ fuel ih =>
    intro bs lu
    unfold expandUp
    dsimp only
    split
    · have hprev : (match rfindChar text '\n' (bs - 1) with
          | none => 0
          | some i => i + 1) ≤ bs := by
        cases hr : rfindChar text '\n' (bs - 1) with
        | none => exact Nat.zero_le bs
        | some k =>
          have h1 := (rfindChar_spec hr).1
          show k + 1 ≤ bs
          omega
      split
      · exact le_refl bs
      · split
        · exact le_refl bs
        · exact le_trans (ih _ _) hprev
    · exact le_refl bs

theorem expandDown_bounds (text : List Char) (ml : Nat) :
    ∀ fuel be lu, be ≤ expandDown text ml fuel be lu ∧
      (be ≤ text.length → expandDown text ml fuel be lu ≤ text.length) := by
  intro fuel
  induction fuel with
  | zero => intro be lu; exact ⟨le_refl _, fun h => h⟩
  | succ fuel ih =>
    intro be lu
    unfold expandDown
    dsimp only
    split
    · split
      · have hnext : be ≤ (findCharFrom text '\n' (be + 1)).getD text.length ∧
            (findCharFrom text '\n' (be + 1)).getD text.length ≤ text.length := by
          rename_i hcond _
          simp only [Bool.and_eq_true, decide_eq_true_eq] at hcond
          cases hf : findCharFrom text '\n' (be + 1) with
          | none =>
            simp only [Option.getD_none]
            omega
          | some m =>
            obtain ⟨hm1, hm2⟩ := findCharFrom_spec hf
            simp only [Option.getD_some]
            omega
        split
        · exact ⟨le_refl _, fun h => h⟩
        · split
          · exact ⟨le_refl _, fun h => h⟩
          · have hih := ih ((findCharFrom text '\n' (be + 1)).getD text.length) (lu + 1)
            exact ⟨le_trans hnext.1 hih.1, fun _ => hih.2 hnext.2⟩
      · exact ⟨le_refl _, fun h => h⟩
    · exact ⟨le_refl _, fun h => h⟩

theorem matchCI_bound {ln : List Char} {i : Nat} {w : List Char}
    (hw : 1 ≤ w.length) (h : matchCI ln i w = true) : i + w.length ≤ ln.length := by
  unfold matchCI at h
  have he := eq_of_beq h
  have hl2 : (lowerStr (extract ln i (i + w.length))).length = w.length := by
    rw [he]
  unfold lowerStr extract at hl2
  rw [List.length_map, List.length_take, List.length_drop] at hl2
  have hsub : i + w.length - i = w.length := by omega
  rw [hsub] at hl2
  have hle : w.length ≤ ln.length - i := by
    rw [← hl2]
    exact min_le_right _ _
  omega

theorem spacesFrom_le (ln : List Char) (i : Nat) : spacesFrom ln i ≤ ln.length - i := by
  unfold spacesFrom
  have h1 := (List.takeWhile_sublist (l := ln.drop i) isSpaceChar).length_le
  simpa [List.length_drop] using h1

theorem addressTailMatch_le {ln : List Char} {off e : Nat}
    (h : addressTailMatch ln off = some e) : e ≤ ln.length := by
  unfold addressTailMatch at h
  dsimp only at h
  split at h
  case isFalse => exact absurd h (by simp)
  case isTrue haddr =>
    have hp7 : off + spacesFrom ln off + 7 ≤ ln.length := by
      have hb := matchCI_bound (w := "address".toList) (by decide) haddr
      rw [show ("address".toList).length = 7 from rfl] at hb
      omega
    split at h
    · exact absurd h (by simp)
    · rename_i r heq
      split at h
      · rename_i hw3
        have he : r + spacesFrom ln r = e := by
          injection h
        have hr : r ≤ ln.length := by
          split at heq
          · rename_i his
            have hb := matchCI_bound (w := "is".toList) (by decide) his
            rw [show ("is".toList).length = 2 from rfl] at hb
            injection heq with h2
            omega
          · split at heq
            · rename_i c hqc
              split at heq
              · injection heq with h2
                obtain ⟨hqlt, -⟩ := List.getElem?_eq_some.mp hqc
                omega
              · exact absurd heq (by simp)
            · exact absurd heq (by simp)
        have hs := spacesFrom_le ln r
        omega
      · exact absurd h (by simp)

theorem prefixTrimEnd_le {ln : List Char} {e : Nat}
    (h : prefixTrimEnd ln = some e) : e ≤ ln.length := by
  unfold prefixTrimEnd at h
  dsimp only at h
  split at h
  · split at h
    · rename_i e0 hat
      injection h with h2
      subst h2
      exact addressTailMatch_le hat
    · exact addressTailMatch_le h
  · exact addressTailMatch_le h

theorem dropWhile_eq_drop (p : Char → Bool) (l : List Char) :
    l.dropWhile p = l.drop (l.takeWhile p).length :=
  calc l.dropWhile p
      = ((l.takeWhile p) ++ (l.dropWhile p)).drop (l.takeWhile p).length :=
        (List.drop_left _ _).symm
    _ = l.drop (l.takeWhile p).length := by
        rw [List.takeWhile_append_dropWhile]

theorem takeWhile_append_of_witness (p : Char → Bool) (A B : List Char) :
    (∃ x ∈ A, p x = false) → (A ++ B).takeWhile p = A.takeWhile p := by
  induction A with
  | nil =>
    rintro ⟨x, hx, -⟩
    exact absurd hx (List.not_mem_nil x)
  | cons a A ih =>
    rintro ⟨x, hx, hpx⟩
    cases hpa : p a with
    | false =>
      show ((a :: (A ++ B)).takeWhile p) = _
      simp [List.takeWhile_cons, hpa]
    | true =>
      have hxa : x ≠ a := fun he => by rw [he, hpa] at hpx; cases hpx
      have hxA : x ∈ A := by
        rcases List.mem_cons.mp hx with he | hm
        · exact absurd he hxa
        · exact hm
      have h1 : ((a :: (A ++ B)).takeWhile p) = a :: ((A ++ B).takeWhile p) := by
        show ((a :: (A ++ B)).takeWhile p) = _
        simp [List.takeWhile_cons, hpa]
      have h2 : ((a :: A).takeWhile p) = a :: (A.takeWhile p) := by
        simp [List.takeWhile_cons, hpa]
      show ((a :: (A ++ B)).takeWhile p) = (a :: A).takeWhile p
      rw [h1, h2, ih ⟨x, hxA, hpx⟩]

/-- The final offset arithmetic of `_expand_to_address_block`: stripping
the whitespace counts off both ends of `text[bs:be]` recovers exactly the
stripped block, so the returned offsets select `candidate` itself. -/
theorem extract_strip (text : List Char) (bs be : Nat)
    (hbs : bs ≤ be) (hbe : be ≤ text.length)
    (hne : stripStr (extract text bs be) ≠ []) :
    extract text
      (bs + ((extract text bs be).length -
        ((extract text bs be).dropWhile isSpaceChar).length))
      (be - ((extract text bs be).length -
        (((extract text bs be).reverse.dropWhile isSpaceChar).reverse).length)) =
      stripStr (extract text bs be) := by
  have hlen : (extract text bs be).length = be - bs := by
    unfold extract
    rw [List.length_take, List.length_drop]
    omega
  have hltw := congrArg List.length
    (List.takeWhile_append_dropWhile (p := isSpaceChar) (l := extract text bs be))
  rw [List.length_append] at hltw
  have hl_eq : (extract text bs be).length -
      ((extract text bs be).dropWhile isSpaceChar).length =
      ((extract text bs be).takeWhile isSpaceChar).length := by omega
  have hrtw := congrArg List.length
    (List.takeWhile_append_dropWhile (p := isSpaceChar) (l := (extract text bs be).reverse))
  rw [List.length_append, List.length_reverse] at hrtw
  have hr_eq : (extract text bs be).length -
      (((extract text bs be).reverse.dropWhile isSpaceChar).reverse).length =
      ((extract text bs be).reverse.takeWhile isSpaceChar).length := by
    rw [List.length_reverse]
    omega
  rw [hl_eq, hr_eq]
  set raw := extract text bs be with hraw
  set l := (raw.takeWhile isSpaceChar).length with hldef
  set r := (raw.reverse.takeWhile isSpaceChar).length with hrdef
  have hdrop : raw.dropWhile isSpaceChar = raw.drop l := dropWhile_eq_drop _ _
  have hd_ne : raw.drop l ≠ [] := by
    intro h0
    apply hne
    unfold stripStr
    rw [hdrop, h0]
    rfl
  have hdw_ne : raw.dropWhile isSpaceChar ≠ [] := by rw [hdrop]; exact hd_ne
  have hwit : ∃ x ∈ (raw.drop l).reverse, isSpaceChar x = false := by
    have hhead := List.head_dropWhile_not isSpaceChar raw hdw_ne
    refine ⟨(raw.dropWhile isSpaceChar).head hdw_ne, ?_, hhead⟩
    rw [List.mem_reverse, ← hdrop]
    exact List.head_mem hdw_ne
  have hr' : ((raw.drop l).reverse.takeWhile isSpaceChar).length = r := by
    rw [hrdef]
    have hsplit : raw.reverse = (raw.drop l).reverse ++ (raw.take l).reverse := by
      rw [← List.reverse_append, List.take_append_drop]
    rw [hsplit, takeWhile_append_of_witness isSpaceChar _ _ hwit]
  have hstrip : stripStr raw = (raw.drop l).take (raw.length - l - r) := by
    unfold stripStr
    rw [hdrop, dropWhile_eq_drop isSpaceChar (raw.drop l).reverse, List.drop_reverse,
      List.reverse_reverse, hr', List.length_drop]
  have hmain : extract text (bs + l) (be - r) = (raw.drop l).take (raw.length - l - r) := by
    have h2 : raw.drop l = ((text.drop bs).drop l).take (be - bs - l) := by
      rw [hraw]
      show (((text.drop bs).take (be - bs)).drop l) = _
      rw [List.drop_take]
    have h1 : (text.drop bs).drop l = text.drop (bs + l) := by
      rw [List.drop_drop, Nat.add_comm]
    unfold extract
    rw [h2, h1, List.take_take, min_eq_left (by rw [hlen]; omega)]
    congr 1
    omega
  rw [hmain, hstrip]

/-- The tail of `_expand_to_address_block` after `block_start`/`block_end`
are fixed: when it returns offsets, the selected slice is the stripped
block and the four guardrails hold on it. -/
theorem expandTail_guard (text : List Char) (bS bE s e : Nat)
    (hbs : bS ≤ bE) (hbe : bE ≤ text.length)
    (h : (if stripStr (extract text bS bE) = [] then (none : Option (Nat × Nat))
          else if !postcodeSearch (stripStr (extract text bS bE)) then none
          else if !(stripStr (extract text bS bE)).any isDigitChar then none
          else if (stripStr (extract text bS bE)).count ',' < 1 then none
          else if (stripStr (extract text bS bE)).length > 260 then none
          else some
            (bS + ((extract text bS bE).length -
              ((extract text bS bE).dropWhile isSpaceChar).length),
             bE - ((extract text bS bE).length -
              (((extract text bS bE).reverse.dropWhile isSpaceChar).reverse).length))) =
      some (s, e)) :
    postcodeSearch (extract text s e) = true ∧
    (extract text s e).any isDigitChar = true ∧
    1 ≤ (extract text s e).count ',' ∧
    (extract text s e).length ≤ 260 := by
  split_ifs at h with h1 h2 h3 h4 h5
  simp only [Option.some.injEq, Prod.mk.injEq] at h
  obtain ⟨hs, he⟩ := h
  subst hs
  subst he
  rw [extract_strip text bS bE hbs hbe h1]
  refine ⟨?_, ?_, ?_, ?_⟩
  · revert h2
    cases postcodeSearch (stripStr (extract text bS bE)) <;> simp
  · revert h3
    cases (stripStr (extract text bS bE)).any isDigitChar <;> simp
  · omega
  · omega

/-- Whenever `_expand_to_address_block` (with the default `max_lines=4`)
returns offsets `(s, e)`, the block `text[s:e]` contains a postcode
match, a digit and a comma, and is at most 260 characters long. -/
theorem expand_block_guardrails {text : List Char} {i j s e : Nat}
    (h : _expand_to_address_block text i j 4 = some (s, e)) :
    postcodeSearch (extract text s e) = true ∧
    (extract text s e).any isDigitChar = true ∧
    1 ≤ (extract text s e).count ',' ∧
    (extract text s e).length ≤ 260 := by
  have hlb := lineBounds_spec text i
  have hU1 := expandUp_le text 4 4 (_line_bounds text i).1 1
  have hE := expandDown_bounds text 4 4 (_line_bounds text i).2
    (expandUp text 4 4 (_line_bounds text i).1 1).2
  have hElen : expandDown text 4 4 (_line_bounds text i).2
      (expandUp text 4 4 (_line_bounds text i).1 1).2 ≤ text.length := hE.2 hlb.2
  have hU1E : (expandUp text 4 4 (_line_bounds text i).1 1).1 ≤
      expandDown text 4 4 (_line_bounds text i).2
        (expandUp text 4 4 (_line_bounds text i).1 1).2 :=
    le_trans hU1 (le_trans hlb.1 hE.1)
  have hR0len : (extract text (expandUp text 4 4 (_line_bounds text i).1 1).1
      (expandDown text 4 4 (_line_bounds text i).2
        (expandUp text 4 4 (_line_bounds text i).1 1).2)).length =
      expandDown text 4 4 (_line_bounds text i).2
        (expandUp text 4 4 (_line_bounds text i).1 1).2 -
      (expandUp text 4 4 (_line_bounds text i).1 1).1 := by
    unfold extract
    rw [List.length_take, List.length_drop]
    omega
  have hflle : ∀ n : Nat,
      ((extract text (expandUp text 4 4 (_line_bounds text i).1 1).1
        (expandDown text 4 4 (_line_bounds text i).2
          (expandUp text 4 4 (_line_bounds text i).1 1).2)).take n).length ≤
      (extract text (expandUp text 4 4 (_line_bounds text i).1 1).1
        (expandDown text 4 4 (_line_bounds text i).2
          (expandUp text 4 4 (_line_bounds text i).1 1).2)).length := fun n => by
    rw [List.length_take]
    exact min_le_right _ _
  unfold _expand_to_address_block at h
  rw [if_neg (by omega)] at h
  dsimp only at h
  set lb := _line_bounds text i with hlbdef
  set U := expandUp text 4 4 lb.1 1 with hUdef
  set E := expandDown text 4 4 lb.2 U.2 with hEdef
  set R0 := extract text U.1 E with hR0def
  set F := ((List.range R0.length).find? (fun k => R0[k]? == some '\n')).getD
    R0.length with hFdef
  set fl := R0.take F with hfldef
  split at h
  · exact absurd h (by simp)
  · split at h
    · exact absurd h (by simp)
    · cases hpt : prefixTrimEnd fl with
      | none =>
        rw [hpt] at h
        dsimp only at h
        exact expandTail_guard text U.1 E s e hU1E hElen h
      | some e0 =>
        rw [hpt] at h
        dsimp only at h
        have he0 := prefixTrimEnd_le hpt
        have hfl1 : fl.length ≤ R0.length := by
          rw [hfldef]
          exact hflle F
        exact expandTail_guard text (U.1 + e0) E s e (by omega) hElen h

/-- One step of the `UK_ADDRESS` loop preserves "every emitted span's
original passes the guardrails". -/
theorem ukAddressStep_guard (text : List Char) (acc : List (Nat × Nat) × List Span)
    (m : Nat × Nat)
    (hacc : ∀ sp ∈ acc.2, postcodeSearch sp.original = true ∧
      sp.original.any isDigitChar = true ∧
      1 ≤ sp.original.count ',' ∧ sp.original.length ≤ 260) :
    ∀ sp ∈ (ukAddressStep text acc m).2, postcodeSearch sp.original = true ∧
      sp.original.any isDigitChar = true ∧
      1 ≤ sp.original.count ',' ∧ sp.original.length ≤ 260 := by
  unfold ukAddressStep
  cases hab : _expand_to_address_block text m.1 m.2 4 with
  | none => exact hacc
  | some ab =>
    obtain ⟨a, b⟩ := ab
    dsimp only
    split_ifs with hmem
    · exact hacc
    · intro sp hsp
      rcases List.mem_append.mp hsp with hL | hR
      · exact hacc sp hL
      · have hsp' : sp = Span.mk a b "UK_ADDRESS" (96/100) "regex"
            (extract text a b) none := by
          simpa using hR
        subst hsp'
        exact expand_block_guardrails hab

/-- The `UK_ADDRESS` loop only accumulates guardrail-passing spans. -/
theorem ukAddressFold_guard (text : List Char) :
    ∀ (ms : List (Nat × Nat)) (acc : List (Nat × Nat) × List Span),
    (∀ sp ∈ acc.2, postcodeSearch sp.original = true ∧
      sp.original.any isDigitChar = true ∧
      1 ≤ sp.original.count ',' ∧ sp.original.length ≤ 260) →
    ∀ sp ∈ (ms.foldl (ukAddressStep text) acc).2,
      postcodeSearch sp.original = true ∧
      sp.original.any isDigitChar = true ∧
      1 ≤ sp.original.count ',' ∧ sp.original.length ≤ 260 := by
  intro ms
  induction ms with
  | nil => intro acc hacc; exact hacc
  | cons m ms ih => intro acc hacc; exact ih _ (ukAddressStep_guard text acc m hacc)

/-! ## Claim C10 -/

theorem assignOne_extent (st : AssignState) (s : Span) :
    sameExtent (assignOne st s).2 s := by
  unfold assignOne assignKeyPath
  split_ifs
  · cases haget : aget (normalise_for_key "PERSON" s.original) st.personAlias with
    | none => exact ⟨rfl, rfl⟩
    | some tag => exact ⟨rfl, rfl⟩
  · exact ⟨rfl, rfl⟩

theorem assignLoop_ext : ∀ (spans : List Span) (st : AssignState)
    (acc l : List Span), List.Forall₂ sameExtent acc l →
    List.Forall₂ sameExtent ((spans.foldl assignStep (st, acc)).2) (l ++ spans)
  | [], st, acc, l, h => by simpa using h
  | s :: spans, st, acc, l, h => by
    show List.Forall₂ sameExtent
      ((spans.foldl assignStep (assignStep (st, acc) s)).2) _
    have step : assignStep (st, acc) s =
        ((assignOne st s).1, acc ++ [(assignOne st s).2]) := rfl
    rw [step]
    have h2 : List.Forall₂ sameExtent (acc ++ [(assignOne st s).2]) (l ++ [s]) :=
      List.rel_append h (List.Forall₂.cons (assignOne_extent st s) List.Forall₂.nil)
    have := assignLoop_ext spans (assignOne st s).1 _ _ h2
    simpa [List.append_assoc] using this

theorem sepSpans_of_sameExtent {a b a' b' : Span} (ha : sameExtent a a')
    (hb : sameExtent b b') (h : sepSpans a' b') : sepSpans a b := by
  unfold sepSpans at *
  rw [ha.1, ha.2, hb.1, hb.2]
  exact h

theorem forall₂_extent_mem_left {l₁ l₂ : List Span}
    (h : List.Forall₂ sameExtent l₁ l₂) :
    ∀ x ∈ l₁, ∃ y ∈ l₂, sameExtent x y := by
  induction h with
  | nil => intro x hx; cases hx
  | cons hab h ih =>
    intro x hx
    rcases List.mem_cons.mp hx with rfl | hx
    · exact ⟨_, List.mem_cons_self _ _, hab⟩
    · obtain ⟨y, hy, hxy⟩ := ih x hx
      exact ⟨y, List.mem_cons_of_mem _ hy, hxy⟩

theorem pairwise_of_forall₂_extent : ∀ {l₁ l₂ : List Span},
    List.Forall₂ sameExtent l₁ l₂ → l₂.Pairwise sepSpans →
    l₁.Pairwise sepSpans := by
  intro l₁ l₂ hf
  induction hf with
  | nil => intro _; exact List.Pairwise.nil
  | cons hab hf ih =>
    intro hp
    rcases List.pairwise_cons.mp hp with ⟨hhead, htail⟩
    refine List.pairwise_cons.mpr ⟨?_, ih htail⟩
    intro x hx
    obtain ⟨y, hy, hxy⟩ := forall₂_extent_mem_left hf x hx
    exact sepSpans_of_sameExtent hab hxy (hhead y hy)

theorem backfillStep_pairwise {text : List Char} {scores : List (List Char × ℚ)}
    {tag : List Char} {sp : List Span} (m : Nat × Nat)
    (h : sp.Pairwise sepSpans) :
    (backfillStep text scores tag sp m).Pairwise sepSpans := by
  unfold backfillStep
  split_ifs with hov
  · exact h
  · rw [List.pairwise_append]
    refine ⟨h, List.pairwise_singleton _ _, ?_⟩
    intro x hx b hb
    rw [List.mem_singleton] at hb
    subst hb
    by_contra hsep
    apply hov
    unfold _span_overlaps_any
    rw [List.any_eq_true]
    refine ⟨x, hx, ?_⟩
    simp only [sepSpans, not_or, not_le] at hsep
    simp only [Bool.not_eq_true', Bool.or_eq_false_iff, decide_eq_false_iff_not,
      not_le, ge_iff_le]
    exact ⟨hsep.2, hsep.1⟩

theorem backfillFold_pairwise :
    ∀ (ms : List (Nat × Nat)) (text : List Char)
      (scores : List (List Char × ℚ)) (tag : List Char) (sp : List Span),
      sp.Pairwise sepSpans →
      (ms.foldl (backfillStep text scores tag) sp).Pairwise sepSpans
  | [], _, _, _, _, h => h
  | m :: ms, text, scores, tag, _sp, h =>
    backfillFold_pairwise ms text scores tag _ (backfillStep_pairwise m h)

theorem backfill_pairwise :
    ∀ (items : List (List Char × List Char)) (text : List Char)
      (scores : List (List Char × ℚ)) (spans : List Span),
      spans.Pairwise sepSpans →
      (backfill text scores items spans).Pairwise sepSpans
  | [], _, _, _, h => h
  | (aliasNorm, tag) :: items, text, scores, spans, h => by
    unfold backfill
    split_ifs
    · exact backfill_pairwise items text scores spans h
    · exact backfill_pairwise items text scores _
        (backfillFold_pairwise _ text scores tag spans h)

/-- Claim C10: if the span list passed to `assign_tags_and_mask` is
pairwise non-overlapping, then the complete span list it returns —
including the synthetic PERSON alias spans added by the backfill sweep,
each of which is checked against every span accumulated so far and
skipped on overlap — is still pairwise non-overlapping. -/
theorem C10_assign_preserves_nonoverlap (text : List Char) (spans : List Span)
    (h : spans.Pairwise sepSpans) :
    ((assign_tags_and_mask text spans).2.2.2).Pairwise sepSpans := by
  unfold assign_tags_and_mask
  have htagged : ((spans.foldl assignStep (⟨[], [], [], [], []⟩, [])).2).Pairwise
      sepSpans := by
    refine pairwise_of_forall₂_extent ?_ h
    have := assignLoop_ext spans ⟨[], [], [], [], []⟩ [] [] List.Forall₂.nil
    simpa using this
  dsimp only
  split_ifs
  · exact backfill_pairwise _ text _ _ htagged
  · exact htagged

/-- Claim C10, witness: applied to the text
`"Contact John Smith. Later, John confirmed."` with the single PERSON
span `[8, 18)` (trivially pairwise non-overlapping); the run adds one
alias span for the bare `"John"` mention and the output is pairwise
non-overlapping. -/
theorem C10_witness :
    ((assign_tags_and_mask "Contact John Smith. Later, John confirmed.".toList
      [{ start := 8, stop := 18, label := "PERSON", score := 9/10,
         source := "gliner", original := "John Smith".toList }]).2.2.2).Pairwise
      sepSpans :=
  C10_assign_preserves_nonoverlap _ _
    (List.pairwise_singleton _ _)

/-! ## Claim C1: association-list and tag-shape lemmas -/

theorem aget_aset {α β : Type} [DecidableEq α] (k k' : α) (v : β) :
    ∀ m : List (α × β),
      aget k' (aset k v m) = if k' = k then some v else aget k' m
  | [] => by
    by_cases h : k' = k <;> simp [aget, aset, h]
  | (k0, v0) :: t => by
    by_cases h0 : k = k0
    · subst h0
      by_cases h : k' = k <;> simp [aget, aset, h]
    · by_cases h : k' = k0
      · subst h
        have hne : ¬ k' = k := fun hk => h0 hk.symm
        simp [aget, aset, h0, hne]
      · simp [aget, aset, h0, h, aget_aset k k' v t]

theorem aget_append_none {α β : Type} [DecidableEq α] (k : α) :
    ∀ m m' : List (α × β), aget k m = none → aget k (m ++ m') = aget k m'
  | [], _, _ => rfl
  | (k0, v0) :: t, m', h => by
    by_cases hk : k = k0
    · simp [aget, hk] at h
    · simp only [aget, if_neg hk] at h ⊢
      exact aget_append_none k t m' h

theorem aget_append_some {α β : Type} [DecidableEq α] (k : α) (v : β) :
    ∀ m m' : List (α × β), aget k m = some v → aget k (m ++ m') = some v
  | [], _, h => by cases h
  | (k0, v0) :: t, m', h => by
    by_cases hk : k = k0
    · simp only [aget, if_pos hk] at h ⊢
      exact h
    · simp only [aget, if_neg hk] at h ⊢
      exact aget_append_some k v t m' h

theorem aget_asetdefault_preserve {α β : Type} [DecidableEq α]
    {k k' : α} {v w : β} {m : List (α × β)} (h : aget k' m = some w) :
    aget k' (asetdefault k v m) = some w := by
  unfold asetdefault
  cases hm : (aget k m).isSome with
  | true => simpa [hm] using h
  | false =>
    simp only [hm, Bool.false_eq_true, if_false]
    exact aget_append_some k' w m _ h

theorem mem_asetdefault {α β : Type} [DecidableEq α]
    {k : α} {v : β} {m : List (α × β)} {p : α × β}
    (h : p ∈ asetdefault k v m) : p ∈ m ∨ p = (k, v) := by
  unfold asetdefault at h
  split_ifs at h
  · exact Or.inl h
  · rcases List.mem_append.mp h with h | h
    · exact Or.inl h
    · exact Or.inr (List.mem_singleton.mp h)

theorem aget_mem {α β : Type} [DecidableEq α] (k : α) (v : β) :
    ∀ m : List (α × β), aget k m = some v → (k, v) ∈ m
  | [], h => by cases h
  | (k0, v0) :: t, h => by
    unfold aget at h
    by_cases hk : k = k0
    · rw [if_pos hk] at h
      cases h
      subst hk
      exact List.mem_cons_self _ _
    · rw [if_neg hk] at h
      exact List.mem_cons_of_mem _ (aget_mem k v t h)

theorem agetD_aset (k k' : String) (v : Nat) (m : List (String × Nat)) :
    agetD k' 0 (aset k v m) = if k' = k then v else agetD k' 0 m := by
  unfold agetD
  rw [aget_aset]
  by_cases h : k' = k <;> simp [h]

theorem natCharsF_digits : ∀ (fuel n : Nat), n < fuel →
    (∀ c ∈ natCharsF fuel n, isDigitChar c = true) ∧ natCharsF fuel n ≠ [] := by
  intro fuel
  induction fuel with
  | zero => intro n h; omega
  | succ fuel ih =>
    intro n h
    unfold natCharsF
    split_ifs with h10
    · refine ⟨?_, by simp⟩
      intro c hc
      rw [List.mem_singleton] at hc
      subst hc
      interval_cases n <;> decide
    · have hdiv : n / 10 < fuel :=
        lt_of_lt_of_le (Nat.div_lt_self (by omega) (by omega)) (by omega)
      obtain ⟨hall, hne⟩ := ih (n / 10) hdiv
      refine ⟨?_, by simp⟩
      intro c hc
      rcases List.mem_append.mp hc with hc | hc
      · exact hall c hc
      · rw [List.mem_singleton] at hc
        subst hc
        have hm : n % 10 < 10 := Nat.mod_lt _ (by omega)
        set m := n % 10 with hmm
        interval_cases m <;> decide

theorem natChars_digits (n : Nat) :
    (∀ c ∈ natChars n, isDigitChar c = true) ∧ natChars n ≠ [] :=
  natCharsF_digits _ _ (Nat.lt_succ_self n)

theorem natChars_inj {n1 n2 : Nat} (h : natChars n1 = natChars n2) : n1 = n2 := by
  have h1 := digitsVal_natChars n1
  have h2 := digitsVal_natChars n2
  rw [← h1, ← h2, h]

theorem append_singleton_inj {d e : List Char} {x : Char}
    (h : d ++ [x] = e ++ [x]) : d = e := by
  have := congrArg List.reverse h
  simp only [List.reverse_append, List.reverse_singleton, List.singleton_append,
    List.cons.injEq] at this
  exact List.reverse_injective this.2

theorem sep_digits_inj : ∀ (a b d e : List Char),
    (∀ c ∈ a, isDigitChar c = false) → (∀ c ∈ b, isDigitChar c = false) →
    (∀ c ∈ d, isDigitChar c = true) → (∀ c ∈ e, isDigitChar c = true) →
    d ≠ [] → e ≠ [] →
    a ++ '_' :: (d ++ [']']) = b ++ '_' :: (e ++ [']']) → a = b ∧ d = e := by
  intro a
  induction a with
  | nil =>
    intro b d e _ hb hd he hdne hene h
    cases b with
    | nil =>
      refine ⟨rfl, ?_⟩
      simp only [List.nil_append, List.cons.injEq] at h
      exact append_singleton_inj h.2
    | cons c b' =>
      exfalso
      simp only [List.nil_append, List.cons_append, List.cons.injEq] at h
      obtain ⟨hc, hrest⟩ := h
      subst hc
      cases d with
      | nil => exact hdne rfl
      | cons d0 d' =>
        have hd0 : isDigitChar d0 = true := hd d0 (List.mem_cons_self _ _)
        cases b' with
        | nil =>
          simp only [List.nil_append, List.cons_append, List.cons.injEq] at hrest
          have : d0 = '_' := hrest.1
          rw [this] at hd0
          exact absurd hd0 (by decide)
        | cons c2 b'' =>
          simp only [List.cons_append, List.cons.injEq] at hrest
          have hc2 : isDigitChar c2 = false := hb c2 (List.mem_cons_of_mem _ (List.mem_cons_self _ _))
          rw [← hrest.1] at hc2
          rw [hd0] at hc2
          cases hc2
  | cons c a' ih =>
    intro b d e ha hb hd he hdne hene h
    cases b with
    | nil =>
      exfalso
      simp only [List.nil_append, List.cons_append, List.cons.injEq] at h
      obtain ⟨hc, hrest⟩ := h
      subst hc
      cases e with
      | nil => exact hene rfl
      | cons e0 e' =>
        have he0 : isDigitChar e0 = true := he e0 (List.mem_cons_self _ _)
        cases a' with
        | nil =>
          simp only [List.nil_append, List.cons_append, List.cons.injEq] at hrest
          have : '_' = e0 := hrest.1
          rw [← this] at he0
          exact absurd he0 (by decide)
        | cons c2 a'' =>
          simp only [List.cons_append, List.cons.injEq] at hrest
          have hc2 : isDigitChar c2 = false := ha c2 (List.mem_cons_of_mem _ (List.mem_cons_self _ _))
          rw [hrest.1] at hc2
          rw [he0] at hc2
          cases hc2
    | cons c2 b' =>
      simp only [List.cons_append, List.cons.injEq] at h
      obtain ⟨hc, hrest⟩ := h
      subst hc
      obtain ⟨hab, hde⟩ := ih b' d e
        (fun x hx => ha x (List.mem_cons_of_mem _ hx))
        (fun x hx => hb x (List.mem_cons_of_mem _ hx)) hd he hdne hene hrest
      exact ⟨by rw [hab], hde⟩

theorem mkTag_inj {l1 l2 : String} {n1 n2 : Nat}
    (h1 : labelDigitFree l1) (h2 : labelDigitFree l2)
    (h : mkTag l1 n1 = mkTag l2 n2) : l1 = l2 ∧ n1 = n2 := by
  have h' : l1.toList ++ '_' :: (natChars n1 ++ [']']) =
      l2.toList ++ '_' :: (natChars n2 ++ [']']) := by
    have ht := congrArg List.tail h
    simpa [mkTag] using ht
  obtain ⟨hl, hn⟩ := sep_digits_inj l1.toList l2.toList (natChars n1) (natChars n2)
    h1 h2 (natChars_digits n1).1 (natChars_digits n2).1
    (natChars_digits n1).2 (natChars_digits n2).2 h'
  constructor
  · cases l1 with
    | mk d1 =>
      cases l2 with
      | mk d2 =>
        have hd : d1 = d2 := by simpa [String.toList] using hl
        exact congrArg String.mk hd
  · exact natChars_inj hn

theorem canon_digitFree : ∀ l ∈ CANON_LABELS, labelDigitFree l := by
  intro l hl
  fin_cases hl <;> simp only [labelDigitFree] <;> decide

/-! ## Claim C1: invariant preservation through the tagging loop -/

theorem pa_fold_mem (tag : List Char) : ∀ (toks : List (List Char))
    (pa : List (List Char × List Char)) (p : List Char × List Char),
    p ∈ toks.foldl
      (fun pa tok => asetdefault (normalise_for_key "PERSON" tok) tag pa) pa →
    p ∈ pa ∨ p.2 = tag
  | [], _, _, h => Or.inl h
  | tok :: toks, pa, p, h => by
    rcases pa_fold_mem tag toks _ p h with h | h
    · rcases mem_asetdefault h with h | h
      · exact Or.inl h
      · exact Or.inr (by rw [h])
    · exact Or.inr h

theorem assignKeyPath_inv (st : AssignState) (s : Span)
    (hst : AssignInv st) (hfree : labelDigitFree s.label) :
    AssignInv (assignKeyPath st s).1 ∧
    (∃ t, (assignKeyPath st s).2.tag = some t ∧
      (∃ n, 1 ≤ n ∧ t = mkTag s.label n) ∧
      aget (s.label, normalise_for_key s.label s.original)
        (assignKeyPath st s).1.valueToTag = some t) ∧
    (∀ k t, aget k st.valueToTag = some t →
      aget k (assignKeyPath st s).1.valueToTag = some t) ∧
    (assignKeyPath st s).2.label = s.label ∧
    (assignKeyPath st s).2.original = s.original := by
  unfold assignKeyPath
  cases hk : aget (s.label, normalise_for_key s.label s.original) st.valueToTag with
  | some t =>
    simp only [hk]
    by_cases hp : s.label = "PERSON"
    · simp only [if_pos hp]
      obtain ⟨hfreeK, n, hn1, _, hshape⟩ := hst.1 _ t hk
      refine ⟨⟨hst.1, hst.2.1, ?_⟩, ⟨t, rfl, ⟨n, hn1, hshape⟩, hk⟩,
        fun _ _ h => h, by trivial, by trivial⟩
      intro p hmem
      rcases pa_fold_mem t _ _ p hmem with hmem | hmem
      · exact hst.2.2 p hmem
      · exact ⟨(s.label, normalise_for_key s.label s.original),
          by rw [hmem]; exact hk, hp⟩
    · simp only [if_neg hp]
      obtain ⟨hfreeK, n, hn1, _, hshape⟩ := hst.1 _ t hk
      exact ⟨⟨hst.1, hst.2.1, hst.2.2⟩, ⟨t, rfl, ⟨n, hn1, hshape⟩, hk⟩,
        fun _ _ h => h, by trivial, by trivial⟩
  | none =>
    simp only [hk]
    have hmono : ∀ k t, aget k st.valueToTag = some t →
        aget k (aset (s.label, normalise_for_key s.label s.original)
          (mkTag s.label (agetD s.label 0 st.counters + 1)) st.valueToTag) = some t := by
      intro k t h
      rw [aget_aset]
      split_ifs with hkk
      · rw [hkk] at h
        rw [h] at hk
        cases hk
      · exact h
    have hself : aget (s.label, normalise_for_key s.label s.original)
        (aset (s.label, normalise_for_key s.label s.original)
          (mkTag s.label (agetD s.label 0 st.counters + 1)) st.valueToTag) =
        some (mkTag s.label (agetD s.label 0 st.counters + 1)) := by
      rw [aget_aset, if_pos rfl]
    have hinv1 : ∀ k' t', aget k'
        (aset (s.label, normalise_for_key s.label s.original)
          (mkTag s.label (agetD s.label 0 st.counters + 1)) st.valueToTag) = some t' →
        labelDigitFree k'.1 ∧ ∃ n, 1 ≤ n ∧
          n ≤ agetD k'.1 0 (aset s.label (agetD s.label 0 st.counters + 1) st.counters) ∧
          t' = mkTag k'.1 n := by
      intro k' t' h'
      rw [aget_aset] at h'
      split_ifs at h' with hkk
      · cases h'
        subst hkk
        refine ⟨hfree, agetD s.label 0 st.counters + 1, by omega, ?_, rfl⟩
        rw [agetD_aset, if_pos rfl]
      · obtain ⟨hf', n, h1, h2, h3⟩ := hst.1 k' t' h'
        refine ⟨hf', n, h1, ?_, h3⟩
        rw [agetD_aset]
        split_ifs with hl
        · rw [hl] at h2
          omega
        · exact h2
    have hinv2 : ∀ k1 k2 t', aget k1
        (aset (s.label, normalise_for_key s.label s.original)
          (mkTag s.label (agetD s.label 0 st.counters + 1)) st.valueToTag) = some t' →
        aget k2 (aset (s.label, normalise_for_key s.label s.original)
          (mkTag s.label (agetD s.label 0 st.counters + 1)) st.valueToTag) = some t' →
        k1 = k2 := by
      intro k1 k2 t' ha1 ha2
      rw [aget_aset] at ha1 ha2
      split_ifs at ha1 ha2 with h1 h2 h2
      · rw [h1, h2]
      · exfalso
        cases ha1
        obtain ⟨hf2, n, hn1, hn2, hshape⟩ := hst.1 k2 _ ha2
        obtain ⟨hlab, hcnt⟩ := mkTag_inj hfree hf2 hshape
        rw [← hlab] at hn2
        omega
      · exfalso
        cases ha2
        obtain ⟨hf1, n, hn1, hn2, hshape⟩ := hst.1 k1 _ ha1
        obtain ⟨hlab, hcnt⟩ := mkTag_inj hfree hf1 hshape
        rw [← hlab] at hn2
        omega
      · exact hst.2.1 k1 k2 t' ha1 ha2
    by_cases hp : s.label = "PERSON"
    · simp only [if_pos hp]
      refine ⟨⟨hinv1, hinv2, ?_⟩,
        ⟨mkTag s.label (agetD s.label 0 st.counters + 1), rfl,
          ⟨agetD s.label 0 st.counters + 1, by omega, rfl⟩, hself⟩,
        hmono, by trivial, by trivial⟩
      intro p hmem
      rcases pa_fold_mem _ _ _ p hmem with hmem | hmem
      · obtain ⟨k, hk', hk1⟩ := hst.2.2 p hmem
        exact ⟨k, hmono k _ hk', hk1⟩
      · exact ⟨(s.label, normalise_for_key s.label s.original),
          by rw [hmem]; exact hself, hp⟩
    · simp only [if_neg hp]
      refine ⟨⟨hinv1, hinv2, ?_⟩,
        ⟨mkTag s.label (agetD s.label 0 st.counters + 1), rfl,
          ⟨agetD s.label 0 st.counters + 1, by omega, rfl⟩, hself⟩,
        hmono, by trivial, by trivial⟩
      intro p hmem
      obtain ⟨k, hk', hk1⟩ := hst.2.2 p hmem
      exact ⟨k, hmono k _ hk', hk1⟩

theorem assignOne_inv (st : AssignState) (s : Span)
    (hst : AssignInv st) (hfree : labelDigitFree s.label) :
    AssignInv (assignOne st s).1 ∧
    (∃ t, (assignOne st s).2.tag = some t ∧
      (∃ n, 1 ≤ n ∧ t = mkTag s.label n) ∧
      (s.label ≠ "PERSON" →
        aget (s.label, normalise_for_key s.label s.original)
          (assignOne st s).1.valueToTag = some t)) ∧
    (∀ k t, aget k st.valueToTag = some t →
      aget k (assignOne st s).1.valueToTag = some t) ∧
    (assignOne st s).2.label = s.label ∧
    (assignOne st s).2.original = s.original := by
  unfold assignOne
  by_cases hp : s.label = "PERSON"
  · rw [if_pos hp]
    cases ha : aget (normalise_for_key "PERSON" s.original) st.personAlias with
    | some tag =>
      simp only [ha]
      refine ⟨⟨hst.1, hst.2.1, hst.2.2⟩, ?_, fun _ _ h => h, by trivial, by trivial⟩
      obtain ⟨k, hk, hk1⟩ := hst.2.2 _ (aget_mem _ _ _ ha)
      obtain ⟨hfreeK, n, hn1, _, hshape⟩ := hst.1 k tag hk
      exact ⟨tag, rfl, ⟨n, hn1, by rw [hshape, hk1, hp]⟩, fun hne => absurd hp hne⟩
    | none =>
      simp only [ha]
      obtain ⟨h1, h2, h3, h4, h5⟩ := assignKeyPath_inv st s hst hfree
      exact ⟨h1, by
        obtain ⟨t, ht1, ht2, ht3⟩ := h2
        exact ⟨t, ht1, ht2, fun _ => ht3⟩, h3, h4, h5⟩
  · rw [if_neg hp]
    obtain ⟨h1, h2, h3, h4, h5⟩ := assignKeyPath_inv st s hst hfree
    exact ⟨h1, by
      obtain ⟨t, ht1, ht2, ht3⟩ := h2
      exact ⟨t, ht1, ht2, fun _ => ht3⟩, h3, h4, h5⟩

theorem assignLoop_inv : ∀ (spans : List Span) (st : AssignState) (acc : List Span),
    (∀ s ∈ spans, labelDigitFree s.label) → AssignInv st → SpanFacts st acc →
    AssignInv (spans.foldl assignStep (st, acc)).1 ∧
    SpanFacts (spans.foldl assignStep (st, acc)).1
      (spans.foldl assignStep (st, acc)).2
  | [], _, _, _, hst, hf => ⟨hst, hf⟩
  | s :: spans, st, acc, hall, hst, hf => by
    obtain ⟨i1, i2, i3, i4, i5⟩ :=
      assignOne_inv st s hst (hall s (List.mem_cons_self s spans))
    have hstep : (s :: spans).foldl assignStep (st, acc) =
        spans.foldl assignStep ((assignOne st s).1, acc ++ [(assignOne st s).2]) :=
      rfl
    rw [hstep]
    refine assignLoop_inv spans _ _
      (fun x hx => hall x (List.mem_cons_of_mem s hx)) i1 ?_
    intro x hx
    rcases List.mem_append.mp hx with hx | hx
    · obtain ⟨t, h1, h2, h3⟩ := hf x hx
      exact ⟨t, h1, h2, fun hne => i3 _ _ (h3 hne)⟩
    · rw [List.mem_singleton] at hx
      subst hx
      obtain ⟨t, h1, h2, h3⟩ := i2
      refine ⟨t, h1, ?_, ?_⟩
      · rw [i4]
        exact h2
      · rw [i4, i5]
        exact h3

theorem backfillFold_mem (text : List Char) (scores : List (List Char × ℚ))
    (tag : List Char) : ∀ (ms : List (Nat × Nat)) (sp : List Span) (x : Span),
    x ∈ ms.foldl (backfillStep text scores tag) sp →
    x ∈ sp ∨ (x.label = "PERSON" ∧ x.tag = some tag)
  | [], _, _, h => Or.inl h
  | m :: ms, sp, x, h => by
    rcases backfillFold_mem text scores tag ms _ x h with h | h
    · unfold backfillStep at h
      split_ifs at h
      · exact Or.inl h
      · rcases List.mem_append.mp h with h | h
        · exact Or.inl h
        · rw [List.mem_singleton] at h
          subst h
          exact Or.inr ⟨rfl, rfl⟩
    · exact Or.inr h

theorem backfill_mem : ∀ (items : List (List Char × List Char)) (text : List Char)
    (scores : List (List Char × ℚ)) (sp : List Span) (x : Span),
    x ∈ backfill text scores items sp →
    x ∈ sp ∨ ∃ a t, (a, t) ∈ items ∧ x.label = "PERSON" ∧ x.tag = some t
  | [], _, _, _, _, h => Or.inl h
  | (a0, t0) :: items, text, scores, sp, x, h => by
    unfold backfill at h
    split_ifs at h
    · rcases backfill_mem items text scores sp x h with h | ⟨a, t, hmem, hl, ht⟩
      · exact Or.inl h
      · exact Or.inr ⟨a, t, List.mem_cons_of_mem _ hmem, hl, ht⟩
    · rcases backfill_mem items text scores _ x h with h | ⟨a, t, hmem, hl, ht⟩
      · rcases backfillFold_mem text scores t0 _ sp x h with h | ⟨hl, ht⟩
        · exact Or.inl h
        · exact Or.inr ⟨a0, t0, List.mem_cons_self _ _, hl, ht⟩
      · exact Or.inr ⟨a, t, List.mem_cons_of_mem _ hmem, hl, ht⟩

/-- Claim C1 (amended): within one `assign_tags_and_mask` run over spans
with canonical labels, every output span carries a tag of the form
`[<its own label>_<n>]` with `n ≥ 1`; spans with different labels never
share a tag; and among non-PERSON spans two spans share a tag if and only
if they agree on `(label, normalise_for_key(label, original))`.  (For
PERSON spans the alias index may reuse the tag of an earlier full name,
so two PERSON spans with the same key can receive different tags — see
the counterexample.) -/
theorem C1_tag_consistency (text : List Char) (spans : List Span)
    (hcanon : ∀ s ∈ spans, s.label ∈ CANON_LABELS) :
    (∀ s ∈ (assign_tags_and_mask text spans).2.2.2,
      ∃ n, 1 ≤ n ∧ s.tag = some (mkTag s.label n)) ∧
    (∀ s1 ∈ (assign_tags_and_mask text spans).2.2.2,
      ∀ s2 ∈ (assign_tags_and_mask text spans).2.2.2,
        s1.tag = s2.tag → s1.label = s2.label) ∧
    (∀ s1 ∈ (assign_tags_and_mask text spans).2.2.2,
      ∀ s2 ∈ (assign_tags_and_mask text spans).2.2.2,
        s1.label ≠ "PERSON" →
        (s1.tag = s2.tag ↔ (s1.label = s2.label ∧
          normalise_for_key s1.label s1.original =
            normalise_for_key s2.label s2.original))) := by
  have hfree : ∀ s ∈ spans, labelDigitFree s.label :=
    fun s hs => canon_digitFree _ (hcanon s hs)
  have hinit : AssignInv ⟨[], [], [], [], []⟩ := by
    refine ⟨fun k t h => ?_, fun k k' t h h' => ?_, fun p hp => ?_⟩
    · cases h
    · cases h
    · cases hp
  obtain ⟨hinv, hfacts⟩ := assignLoop_inv spans ⟨[], [], [], [], []⟩ [] hfree hinit
    (fun x hx => absurd hx (List.not_mem_nil x))
  have hout_eq : (assign_tags_and_mask text spans).2.2.2 =
      (if (spans.foldl assignStep (⟨[], [], [], [], []⟩, [])).1.personAlias ≠ [] then
        backfill text (spans.foldl assignStep (⟨[], [], [], [], []⟩, [])).1.scores
          (List.insertionSort aliasLenLe
            (spans.foldl assignStep (⟨[], [], [], [], []⟩, [])).1.personAlias)
          (spans.foldl assignStep (⟨[], [], [], [], []⟩, [])).2
      else (spans.foldl assignStep (⟨[], [], [], [], []⟩, [])).2) := rfl
  have hOut : ∀ s ∈ (assign_tags_and_mask text spans).2.2.2,
      ∃ t, s.tag = some t ∧ (∃ n, 1 ≤ n ∧ t = mkTag s.label n) ∧
        (s.label ≠ "PERSON" →
          aget (s.label, normalise_for_key s.label s.original)
            (spans.foldl assignStep (⟨[], [], [], [], []⟩, [])).1.valueToTag =
            some t) := by
    rw [hout_eq]
    split_ifs
    · intro s hs
      rcases backfill_mem _ text _ _ s hs with hs | ⟨a, t, hmem, hl, ht⟩
      · exact hfacts s hs
      · have hpa : (a, t) ∈
            (spans.foldl assignStep (⟨[], [], [], [], []⟩, [])).1.personAlias :=
          (List.perm_insertionSort aliasLenLe _).mem_iff.mp hmem
        obtain ⟨k, hk, hk1⟩ := hinv.2.2 (a, t) hpa
        obtain ⟨hfk, n, hn1, _, hshape⟩ := hinv.1 k t hk
        exact ⟨t, ht, ⟨n, hn1, by rw [hshape, hk1, hl]⟩, fun hne => absurd hl hne⟩
    · exact hfacts
  have hFree : ∀ s ∈ (assign_tags_and_mask text spans).2.2.2,
      labelDigitFree s.label := by
    intro s hs
    by_cases hp : s.label = "PERSON"
    · rw [hp]
      simp only [labelDigitFree]
      decide
    · obtain ⟨t, _, _, himpl⟩ := hOut s hs
      exact (hinv.1 _ t (himpl hp)).1
  refine ⟨?_, ?_, ?_⟩
  · intro s hs
    obtain ⟨t, h1, ⟨n, hn1, h2⟩, _⟩ := hOut s hs
    exact ⟨n, hn1, by rw [h1, h2]⟩
  · intro s1 h1 s2 h2 htag
    obtain ⟨t1, e1, ⟨n1, hn1, sh1⟩, _⟩ := hOut s1 h1
    obtain ⟨t2, e2, ⟨n2, hn2, sh2⟩, _⟩ := hOut s2 h2
    have ht12 : t1 = t2 := by
      rw [e1, e2] at htag
      exact Option.some.inj htag
    have heq : mkTag s1.label n1 = mkTag s2.label n2 := by
      rw [← sh1, ht12, sh2]
    exact (mkTag_inj (hFree s1 h1) (hFree s2 h2) heq).1
  · intro s1 h1 s2 h2 hp1
    obtain ⟨t1, e1, ⟨n1, hn1, sh1⟩, impl1⟩ := hOut s1 h1
    obtain ⟨t2, e2, ⟨n2, hn2, sh2⟩, impl2⟩ := hOut s2 h2
    constructor
    · intro htag
      have ht12 : t1 = t2 := by
        rw [e1, e2] at htag
        exact Option.some.inj htag
      have heq : mkTag s1.label n1 = mkTag s2.label n2 := by
        rw [← sh1, ht12, sh2]
      have hlab : s1.label = s2.label :=
        (mkTag_inj (hFree s1 h1) (hFree s2 h2) heq).1
      have hp2 : s2.label ≠ "PERSON" := by
        rw [← hlab]
        exact hp1
      have ha1 := impl1 hp1
      have ha2 := impl2 hp2
      rw [← ht12] at ha2
      have hkeq := hinv.2.1 _ _ t1 ha1 ha2
      exact ⟨congrArg Prod.fst hkeq, congrArg Prod.snd hkeq⟩
    · rintro ⟨hlab, hnorm⟩
      have hp2 : s2.label ≠ "PERSON" := by
        rw [← hlab]
        exact hp1
      have ha1 := impl1 hp1
      have ha2 := impl2 hp2
      rw [← hnorm, ← hlab] at ha2
      rw [ha1] at ha2
      have ht12 : t1 = t2 := Option.some.inj ha2
      rw [e1, e2, ht12]

/-- Claim C1, witness for the amended theorem at the counterexample run
(all labels canonical), instantiated at the first output span: it
carries a tag of the form `[<its own label>_<n>]` with `n ≥ 1`. -/
theorem C1_witness :
    ∃ n, 1 ≤ n ∧
      (Span.mk 0 4 "PERSON" (9/10) "gliner" "John".toList
        (some "[PERSON_1]".toList)).tag =
      some (mkTag (Span.mk 0 4 "PERSON" (9/10) "gliner" "John".toList
        (some "[PERSON_1]".toList)).label n) :=
  (C1_tag_consistency c1Text c1Spans (by decide)).1
    (Span.mk 0 4 "PERSON" (9/10) "gliner" "John".toList
      (some "[PERSON_1]".toList))
    (by
      have hout : (assign_tags_and_mask c1Text c1Spans).2.2.2 =
          [{ start := 0, stop := 4, label := "PERSON", score := 9/10,
             source := "gliner", original := "John".toList,
             tag := some "[PERSON_1]".toList },
           { start := 6, stop := 16, label := "PERSON", score := 8/10,
             source := "gliner", original := "Alice John".toList,
             tag := some "[PERSON_2]".toList },
           { start := 18, stop := 22, label := "PERSON", score := 7/10,
             source := "gliner", original := "John".toList,
             tag := some "[PERSON_2]".toList }] := by rfl
      rw [hout]
      exact List.Mem.head _)

/-! ## Claim C3: mechanics of `replace` -/

theorem replaceAllF_nil (k v : List Char) (fuel : Nat) :
    replaceAllF k v fuel [] = [] := by
  cases fuel <;> rfl

theorem replaceAllF_fuel (k v : List Char) :
    ∀ fuel fuel' s, s.length ≤ fuel → s.length ≤ fuel' →
      replaceAllF k v fuel s = replaceAllF k v fuel' s := by
  intro fuel
  induction fuel with
  | zero =>
    intro fuel' s hs _
    have h0 : s = [] := List.eq_nil_of_length_eq_zero (by omega)
    subst h0
    rw [replaceAllF_nil, replaceAllF_nil]
  | succ fuel ih =>
    intro fuel' s hs hs'
    cases s with
    | nil => rw [replaceAllF_nil, replaceAllF_nil]
    | cons c s =>
      cases fuel' with
      | zero => simp at hs'
      | succ fuel' =>
        simp only [replaceAllF]
        by_cases hp : (isPrefixChars k (c :: s) && decide (k ≠ [])) = true
        · have hk1 : 1 ≤ k.length := by
            have hp2 := hp
            simp only [Bool.and_eq_true] at hp2
            have h3 := of_decide_eq_true hp2.2
            cases k with
            | nil => exact absurd rfl h3
            | cons a t => simp
          rw [if_pos hp, if_pos hp]
          congr 1
          have hd : ((c :: s).drop k.length).length = s.length + 1 - k.length := by
            rw [List.length_drop]
            simp
          apply ih
          · rw [hd]
            simp only [List.length_cons] at hs
            omega
          · rw [hd]
            simp only [List.length_cons] at hs'
            omega
        · rw [if_neg hp, if_neg hp]
          congr 1
          apply ih
          · simp only [List.length_cons] at hs
            omega
          · simp only [List.length_cons] at hs'
            omega

theorem replaceAllF_cons_skip {k : List Char} (v : List Char) {c : Char} {s : List Char}
    (h : isPrefixChars k (c :: s) = false) (fuel : Nat) :
    replaceAllF k v (fuel + 1) (c :: s) = c :: replaceAllF k v fuel s := by
  simp only [replaceAllF, h, Bool.false_and, Bool.false_eq_true, if_false]

theorem isPrefixChars_append (k R : List Char) : isPrefixChars k (k ++ R) = true := by
  induction k with
  | nil => rfl
  | cons a t ih => simp [isPrefixChars, ih]

theorem isPrefixChars_exists : ∀ {p s : List Char}, isPrefixChars p s = true →
    ∃ u, s = p ++ u
  | [], s, _ => ⟨s, rfl⟩
  | a :: p, [], h => by simp [isPrefixChars] at h
  | a :: p, b :: s, h => by
    have h' : (decide (a = b) && isPrefixChars p s) = true := h
    simp only [Bool.and_eq_true] at h'
    obtain ⟨h1, h2⟩ := h'
    have hab : a = b := of_decide_eq_true h1
    obtain ⟨u, hu⟩ := isPrefixChars_exists h2
    exact ⟨u, by rw [hu, ← hab]; rfl⟩

theorem replaceAllF_match {k : List Char} (v R : List Char) {c : Char} {kt : List Char}
    (hk : k = c :: kt) (fuel : Nat) :
    replaceAllF k v (fuel + 1) (k ++ R) = v ++ replaceAllF k v fuel R := by
  subst hk
  have hpre : isPrefixChars (c :: kt) (c :: (kt ++ R)) = true :=
    isPrefixChars_append (c :: kt) R
  show replaceAllF (c :: kt) v (fuel + 1) (c :: (kt ++ R)) = _
  simp only [replaceAllF]
  rw [if_pos (by simp [hpre])]
  congr 2
  show ((c :: kt) ++ R).drop (c :: kt).length = R
  exact List.drop_left _ _

theorem replaceAll_lit_skip {k : List Char} (v : List Char) {c : Char} {kt : List Char}
    (hk : k = c :: kt) :
    ∀ (L R : List Char) (fuel : Nat), (L ++ R).length ≤ fuel → c ∉ L →
      replaceAllF k v fuel (L ++ R) = L ++ replaceAllF k v R.length R := by
  intro L
  induction L with
  | nil =>
    intro R fuel hf _
    simp only [List.nil_append] at hf ⊢
    exact replaceAllF_fuel k v fuel R.length R hf (le_refl _)
  | cons a L ih =>
    intro R fuel hf hc
    have ha : a ≠ c := fun he => hc (by rw [← he]; exact List.mem_cons_self _ _)
    cases fuel with
    | zero => simp at hf
    | succ fuel =>
      have hpre : isPrefixChars k (a :: (L ++ R)) = false := by
        rw [hk]
        show (decide (c = a) && isPrefixChars kt (L ++ R)) = false
        rw [decide_eq_false (Ne.symm ha)]
        rw [Bool.false_and]
      show replaceAllF k v (fuel + 1) (a :: (L ++ R)) = a :: (L ++ _)
      rw [replaceAllF_cons_skip v hpre fuel]
      rw [ih R fuel (by simp only [List.length_append, List.length_cons] at hf ⊢; omega)
        (fun hm => hc (List.mem_cons_of_mem a hm))]

theorem bracket_sep_inj : ∀ (a b X Y : List Char), ']' ∉ a → ']' ∉ b →
    a ++ ']' :: X = b ++ ']' :: Y → a = b ∧ X = Y
  | [], [], X, Y, _, _, h => by
    simp only [List.nil_append, List.cons.injEq, true_and] at h
    exact ⟨rfl, h⟩
  | [], c :: b', X, Y, _, hb, h => by
    exfalso
    simp only [List.nil_append, List.cons_append, List.cons.injEq] at h
    apply hb
    rw [← h.1]
    exact List.mem_cons_self _ _
  | c :: a', [], X, Y, ha, _, h => by
    exfalso
    simp only [List.nil_append, List.cons_append, List.cons.injEq] at h
    apply ha
    rw [h.1]
    exact List.mem_cons_self _ _
  | c :: a', d :: b', X, Y, ha, hb, h => by
    simp only [List.cons_append, List.cons.injEq] at h
    obtain ⟨hcd, hrest⟩ := h
    obtain ⟨h1, h2⟩ := bracket_sep_inj a' b' X Y
      (fun hm => ha (List.mem_cons_of_mem _ hm))
      (fun hm => hb (List.mem_cons_of_mem _ hm)) hrest
    exact ⟨by rw [hcd, h1], h2⟩

theorem tagShape_prefix_eq {t k R : List Char} (ht : TagShape t) (hk : TagShape k)
    (h : isPrefixChars k (t ++ R) = true) : k = t := by
  obtain ⟨tm, htm, htl, htr⟩ := ht
  obtain ⟨km, hkm, hkl, hkr⟩ := hk
  subst htm
  subst hkm
  obtain ⟨u, hu⟩ := isPrefixChars_exists h
  have hu' : tm ++ ']' :: R = km ++ ']' :: u := by
    have h2 := hu
    simp only [List.cons_append, List.append_assoc, List.singleton_append,
      List.cons.injEq, true_and] at h2
    exact h2
  obtain ⟨hmid, -⟩ := bracket_sep_inj tm km R u htr hkr hu'
  rw [hmid]

theorem replaceAll_tag_skip {k : List Char} (v : List Char) (hk : TagShape k) :
    ∀ {t : List Char}, TagShape t → t ≠ k →
    ∀ (R : List Char) (fuel : Nat), (t ++ R).length ≤ fuel →
      replaceAllF k v fuel (t ++ R) = t ++ replaceAllF k v R.length R := by
  intro t ht htk R fuel hf
  obtain ⟨tm, htm, htl, htr⟩ := ht
  subst htm
  cases fuel with
  | zero => simp at hf
  | succ fuel =>
    have hpre : isPrefixChars k ('[' :: ((tm ++ [']']) ++ R)) = false := by
      by_contra hp
      rw [Bool.not_eq_false] at hp
      have hkt : k = '[' :: tm ++ [']'] :=
        tagShape_prefix_eq ⟨tm, rfl, htl, htr⟩ hk hp
      exact absurd hkt (Ne.symm htk)
    obtain ⟨km, hkm, -, -⟩ := hk
    show replaceAllF k v (fuel + 1) ('[' :: ((tm ++ [']']) ++ R)) = _
    rw [replaceAllF_cons_skip v hpre fuel]
    rw [replaceAll_lit_skip v hkm (tm ++ [']']) R fuel
      (by simp only [List.cons_append, List.length_cons] at hf
          simpa using Nat.le_of_succ_le_succ hf)
      (by
        intro hm
        rcases List.mem_append.mp hm with hm | hm
        · exact htl hm
        · rw [List.mem_singleton] at hm
          cases hm)]
    simp [List.append_assoc]

/-! ## Claim C3: the substitution acting on a piece decomposition -/

theorem flatPieces_append : ∀ (xs ys : List Piece),
    flatPieces (xs ++ ys) = flatPieces xs ++ flatPieces ys
  | [], ys => rfl
  | Piece.lit L :: xs, ys => by
    show L ++ flatPieces (xs ++ ys) = (L ++ flatPieces xs) ++ flatPieces ys
    rw [flatPieces_append xs ys, List.append_assoc]
  | Piece.ptag t :: xs, ys => by
    show t ++ flatPieces (xs ++ ys) = (t ++ flatPieces xs) ++ flatPieces ys
    rw [flatPieces_append xs ys, List.append_assoc]

theorem replacePass_pieces {k v : List Char} (hk : TagShape k) :
    ∀ (pieces : List Piece) (fuel : Nat),
      (flatPieces pieces).length ≤ fuel →
      (∀ p ∈ pieces, PieceWF p) →
      replaceAllF k v fuel (flatPieces pieces) =
        flatPieces (pieces.map (replaceOne k v))
  | [], fuel, _, _ => replaceAllF_nil k v fuel
  | Piece.lit L :: rest, fuel, hf, hwf => by
    show replaceAllF k v fuel (L ++ flatPieces rest) =
      L ++ flatPieces (rest.map (replaceOne k v))
    obtain ⟨km, hkm, -, -⟩ := id hk
    rw [replaceAll_lit_skip v hkm L (flatPieces rest) fuel hf
      (hwf (Piece.lit L) (List.mem_cons_self _ _))]
    rw [replacePass_pieces hk rest (flatPieces rest).length (le_refl _)
      (fun p hp => hwf p (List.mem_cons_of_mem _ hp))]
  | Piece.ptag t :: rest, fuel, hf, hwf => by
    have hwt : TagShape t := hwf (Piece.ptag t) (List.mem_cons_self _ _)
    by_cases htk : t = k
    · have h1 : flatPieces (Piece.ptag t :: rest) = k ++ flatPieces rest := by
        show t ++ flatPieces rest = k ++ flatPieces rest
        rw [htk]
      rw [h1] at hf ⊢
      obtain ⟨km, hkm, -, -⟩ := id hk
      cases fuel with
      | zero =>
        exfalso
        rw [hkm] at hf
        simp at hf
      | succ fuel =>
        rw [replaceAllF_match v (flatPieces rest) hkm fuel]
        have hr : (flatPieces rest).length ≤ fuel := by
          rw [hkm] at hf
          simp only [List.cons_append, List.length_cons, List.length_append] at hf
          omega
        rw [replaceAllF_fuel k v fuel (flatPieces rest).length _ hr (le_refl _)]
        rw [replacePass_pieces hk rest _ (le_refl _)
          (fun p hp => hwf p (List.mem_cons_of_mem _ hp))]
        simp only [List.map_cons, replaceOne, if_pos htk, flatPieces]
    · show replaceAllF k v fuel (t ++ flatPieces rest) = _
      rw [replaceAll_tag_skip v hk hwt htk (flatPieces rest) fuel hf]
      rw [replacePass_pieces hk rest _ (le_refl _)
        (fun p hp => hwf p (List.mem_cons_of_mem _ hp))]
      simp only [List.map_cons, replaceOne, if_neg htk, flatPieces]

theorem substFold_pieces :
    ∀ (ms : List (List Char × List Char)) (pieces : List Piece),
      (∀ kv ∈ ms, TagShape kv.1 ∧ '[' ∉ kv.2) →
      (∀ p ∈ pieces, PieceWF p) →
      ms.foldl (fun acc kv => replaceAll kv.1 kv.2 acc) (flatPieces pieces) =
        flatPieces (ms.foldl (fun ps kv => ps.map (replaceOne kv.1 kv.2)) pieces)
  | [], _, _, _ => rfl
  | kv :: ms, pieces, hms, hwf => by
    have hk := (hms kv (List.mem_cons_self _ _)).1
    have hv := (hms kv (List.mem_cons_self _ _)).2
    have hpass : replaceAll kv.1 kv.2 (flatPieces pieces) =
        flatPieces (pieces.map (replaceOne kv.1 kv.2)) :=
      replacePass_pieces hk pieces (flatPieces pieces).length (le_refl _) hwf
    show ms.foldl _ (replaceAll kv.1 kv.2 (flatPieces pieces)) = _
    rw [hpass]
    refine substFold_pieces ms (pieces.map (replaceOne kv.1 kv.2))
      (fun kv' h => hms kv' (List.mem_cons_of_mem _ h)) ?_
    intro p hp
    rw [List.mem_map] at hp
    obtain ⟨q, hq, rfl⟩ := hp
    have hwq := hwf q hq
    cases q with
    | lit L => exact hwq
    | ptag t =>
      show PieceWF (if t = kv.1 then Piece.lit kv.2 else Piece.ptag t)
      split_ifs
      · exact hv
      · exact hwq

theorem substPieces_resolve :
    ∀ (ms : List (List Char × List Char)) (pieces : List Piece),
      ms.foldl (fun ps kv => ps.map (replaceOne kv.1 kv.2)) pieces =
        pieces.map (resolvePiece ms)
  | [], pieces => by
    show pieces = pieces.map (resolvePiece [])
    have hid : ∀ p : Piece, resolvePiece [] p = p := by
      intro p
      cases p with
      | lit L => rfl
      | ptag t => rfl
    calc pieces = pieces.map id := (List.map_id pieces).symm
      _ = pieces.map (resolvePiece []) :=
        List.map_congr_left (fun p _ => (hid p).symm)
  | kv :: ms, pieces => by
    show ms.foldl _ (pieces.map (replaceOne kv.1 kv.2)) =
      pieces.map (resolvePiece (kv :: ms))
    rw [substPieces_resolve ms (pieces.map (replaceOne kv.1 kv.2))]
    rw [List.map_map]
    apply List.map_congr_left
    intro p _
    cases p with
    | lit L => rfl
    | ptag t =>
      show resolvePiece ms (replaceOne kv.1 kv.2 (Piece.ptag t)) =
        resolvePiece (kv :: ms) (Piece.ptag t)
      have hag : aget t (kv :: ms) = if t = kv.1 then some kv.2 else aget t ms := rfl
      by_cases htk : t = kv.1
      · simp only [replaceOne, if_pos htk, resolvePiece, hag]
      · simp only [replaceOne, if_neg htk, resolvePiece, hag]

/-! ## Claim C3: the back-to-front rewriter as a piece decomposition -/

theorem rest_before_head {s : Span} {ds : List Span}
    (hs1 : s.start < s.stop)
    (hsort : (s :: ds).Pairwise startDescLe)
    (hsep : (s :: ds).Pairwise sepSpans) :
    ∀ sp ∈ ds, sp.stop ≤ s.start := by
  intro sp hsp
  have h1 : startDescLe s sp := (List.pairwise_cons.mp hsort).1 sp hsp
  have h2 : sepSpans s sp := (List.pairwise_cons.mp hsep).1 sp hsp
  unfold startDescLe at h1
  unfold sepSpans at h2
  rcases h2 with h2 | h2 <;> omega

theorem maskFold_append :
    ∀ (ds : List Span) (A B : List Char),
      (∀ sp ∈ ds, sp.start < sp.stop ∧ sp.stop ≤ A.length) →
      ds.Pairwise startDescLe → ds.Pairwise sepSpans →
      ds.foldl maskStep (A ++ B) = (ds.foldl maskStep A) ++ B
  | [], _, _, _, _, _ => rfl
  | s :: ds, A, B, hb, hsort, hsep => by
    obtain ⟨hs1, hs2⟩ := hb s (List.mem_cons_self _ _)
    have hstep : maskStep (A ++ B) s = maskStep A s ++ B := by
      unfold maskStep
      rw [List.take_append_of_le_length (by omega),
        List.drop_append_of_le_length hs2]
      simp [List.append_assoc]
    have hrest : ∀ sp ∈ ds, sp.stop ≤ s.start := rest_before_head hs1 hsort hsep
    have hlen : s.start ≤ (maskStep A s).length := by
      unfold maskStep
      rw [List.length_append, List.length_append, List.length_take]
      have hmin : min s.start A.length = s.start := min_eq_left (by omega)
      omega
    show ds.foldl maskStep (maskStep (A ++ B) s) =
      ds.foldl maskStep (maskStep A s) ++ B
    rw [hstep]
    refine maskFold_append ds (maskStep A s) B ?_
      (List.pairwise_cons.mp hsort).2 (List.pairwise_cons.mp hsep).2
    intro sp hsp
    obtain ⟨hp1, hp2⟩ := hb sp (List.mem_cons_of_mem _ hsp)
    have h3 := hrest sp hsp
    exact ⟨hp1, by omega⟩

theorem maskFold_pieces :
    ∀ (ds : List Span) (A : List Char),
      (∀ sp ∈ ds, sp.start < sp.stop ∧ sp.stop ≤ A.length) →
      ds.Pairwise startDescLe → ds.Pairwise sepSpans →
      ds.foldl maskStep A = flatPieces (piecesOf A ds)
  | [], A, _, _, _ => by
    show A = flatPieces [Piece.lit A]
    simp [flatPieces]
  | s :: ds, A, hb, hsort, hsep => by
    obtain ⟨hs1, hs2⟩ := hb s (List.mem_cons_self _ _)
    have hrest : ∀ sp ∈ ds, sp.stop ≤ s.start := rest_before_head hs1 hsort hsep
    have hb' : ∀ sp ∈ ds, sp.start < sp.stop ∧ sp.stop ≤ (A.take s.start).length := by
      intro sp hsp
      obtain ⟨hp1, hp2⟩ := hb sp (List.mem_cons_of_mem _ hsp)
      have h3 := hrest sp hsp
      refine ⟨hp1, ?_⟩
      rw [List.length_take]
      have hmin : min s.start A.length = s.start := min_eq_left (by omega)
      omega
    have hA' : maskStep A s = (A.take s.start) ++ (s.tag.getD [] ++ A.drop s.stop) := by
      unfold maskStep
      rw [List.append_assoc]
    show ds.foldl maskStep (maskStep A s) = _
    rw [hA', maskFold_append ds (A.take s.start) _ hb'
      (List.pairwise_cons.mp hsort).2 (List.pairwise_cons.mp hsep).2]
    rw [maskFold_pieces ds (A.take s.start) hb'
      (List.pairwise_cons.mp hsort).2 (List.pairwise_cons.mp hsep).2]
    rw [show piecesOf A (s :: ds) = piecesOf (A.take s.start) ds ++
      [Piece.ptag (s.tag.getD []), Piece.lit (A.drop s.stop)] from rfl]
    rw [flatPieces_append]
    simp [flatPieces]

theorem piecesOf_WF :
    ∀ (ds : List Span) (A : List Char), '[' ∉ A →
      (∀ sp ∈ ds, ∃ t, sp.tag = some t ∧ TagShape t) →
      ∀ p ∈ piecesOf A ds, PieceWF p
  | [], A, hA, _, p, hp => by
    rw [show piecesOf A [] = [Piece.lit A] from rfl, List.mem_singleton] at hp
    subst hp
    exact hA
  | s :: ds, A, hA, htags, p, hp => by
    rw [show piecesOf A (s :: ds) = piecesOf (A.take s.start) ds ++
      [Piece.ptag (s.tag.getD []), Piece.lit (A.drop s.stop)] from rfl,
      List.mem_append] at hp
    rcases hp with hp | hp
    · exact piecesOf_WF ds (A.take s.start)
        (fun hm => hA (List.take_subset _ _ hm))
        (fun sp h => htags sp (List.mem_cons_of_mem _ h)) p hp
    · rw [List.mem_cons, List.mem_singleton] at hp
      rcases hp with rfl | rfl
      · obtain ⟨t, ht, hts⟩ := htags s (List.mem_cons_self _ _)
        show PieceWF (Piece.ptag (s.tag.getD []))
        rw [ht]
        exact hts
      · exact fun hm => hA (List.drop_subset _ _ hm)

theorem take_extract_drop_glue (text : List Char) (a b m : Nat)
    (hab : a ≤ b) (hbm : b ≤ m) :
    text.take a ++ (extract text a b ++ (text.take m).drop b) = text.take m := by
  have h1 : extract text a b = extract (text.take m) a b := by
    unfold extract
    rw [List.drop_take, List.take_take, min_eq_left (by omega)]
  rw [h1]
  set T := text.take m with hT
  have h2 : text.take a = T.take a := by
    rw [hT, List.take_take, min_eq_left (by omega)]
  rw [h2]
  have h3 : T.drop b = (T.drop a).drop (b - a) := by
    rw [List.drop_drop]
    congr 1
    omega
  rw [h3]
  show T.take a ++ ((T.drop a).take (b - a) ++ (T.drop a).drop (b - a)) = T
  rw [List.take_append_drop (b - a) (T.drop a)]
  rw [List.take_append_drop a T]

theorem piecesOf_resolve (text : List Char) (msort : List (List Char × List Char)) :
    ∀ (ds : List Span) (m : Nat),
      (∀ sp ∈ ds, sp.start < sp.stop ∧ sp.stop ≤ (text.take m).length) →
      ds.Pairwise startDescLe → ds.Pairwise sepSpans →
      (∀ sp ∈ ds, ∃ t, sp.tag = some t ∧
        aget t msort = some (extract text sp.start sp.stop)) →
      flatPieces ((piecesOf (text.take m) ds).map (resolvePiece msort)) = text.take m
  | [], m, _, _, _, _ => by
    simp [piecesOf, flatPieces, resolvePiece]
  | s :: ds, m, hb, hsort, hsep, htags => by
    obtain ⟨hs1, hs2⟩ := hb s (List.mem_cons_self _ _)
    obtain ⟨t, ht, hmap⟩ := htags s (List.mem_cons_self _ _)
    have hsm : s.stop ≤ m ∧ s.stop ≤ text.length := by
      rw [List.length_take] at hs2
      exact ⟨le_trans hs2 (min_le_left _ _), le_trans hs2 (min_le_right _ _)⟩
    have hrest : ∀ sp ∈ ds, sp.stop ≤ s.start :=
      rest_before_head hs1 hsort hsep
    have htake : (text.take m).take s.start = text.take s.start := by
      rw [List.take_take, min_eq_left (by omega)]
    have hb' : ∀ sp ∈ ds, sp.start < sp.stop ∧ sp.stop ≤ (text.take s.start).length := by
      intro sp hsp
      obtain ⟨hp1, hp2⟩ := hb sp (List.mem_cons_of_mem _ hsp)
      have h3 := hrest sp hsp
      refine ⟨hp1, ?_⟩
      rw [List.length_take]
      have hss : s.start ≤ text.length := by omega
      have hmin : min s.start text.length = s.start := min_eq_left hss
      omega
    rw [show piecesOf (text.take m) (s :: ds) =
        piecesOf ((text.take m).take s.start) ds ++
          [Piece.ptag (s.tag.getD []), Piece.lit ((text.take m).drop s.stop)] from rfl]
    rw [List.map_append, flatPieces_append, htake]
    rw [piecesOf_resolve text msort ds s.start hb'
      (List.pairwise_cons.mp hsort).2 (List.pairwise_cons.mp hsep).2
      (fun sp h => htags sp (List.mem_cons_of_mem _ h))]
    have hres : resolvePiece msort (Piece.ptag (s.tag.getD [])) =
        Piece.lit (extract text s.start s.stop) := by
      rw [ht]
      show resolvePiece msort (Piece.ptag t) = _
      simp only [resolvePiece, hmap]
    rw [List.map_cons, List.map_cons, List.map_nil, hres]
    show text.take s.start ++
      (extract text s.start s.stop ++ (((text.take m).drop s.stop) ++ [])) = text.take m
    rw [List.append_nil]
    exact take_extract_drop_glue text s.start s.stop m (by omega) hsm.1

/-! ## Claim C3: putting the rewrite and the substitution together -/

theorem subst_rewrite_eq (text : List Char) (spans : List Span)
    (mapping : List (List Char × List Char))
    (htext : '[' ∉ text)
    (hb : ∀ sp ∈ spans, sp.start < sp.stop ∧ sp.stop ≤ text.length)
    (hsep : spans.Pairwise sepSpans)
    (hmap : ∀ kv ∈ mapping, TagShape kv.1 ∧ '[' ∉ kv.2)
    (htags : ∀ sp ∈ spans, ∃ t, sp.tag = some t ∧ TagShape t ∧
      aget t (List.insertionSort aliasLenLe mapping) =
        some (extract text sp.start sp.stop)) :
    substTags mapping (rewriteMask text spans) = text := by
  unfold substTags rewriteMask
  set ds := List.insertionSort startDescLe spans with hds
  have hdperm : List.Perm ds spans := List.perm_insertionSort _ _
  have hdb : ∀ sp ∈ ds, sp.start < sp.stop ∧ sp.stop ≤ text.length :=
    fun sp h => hb sp (hdperm.mem_iff.mp h)
  have hdsort : ds.Pairwise startDescLe := List.sorted_insertionSort startDescLe spans
  have hdsep : ds.Pairwise sepSpans :=
    (List.Perm.pairwise_iff (fun h => sepSpans_symm h) hdperm).mpr hsep
  have hdt : ∀ sp ∈ ds, ∃ t, sp.tag = some t ∧ TagShape t ∧
      aget t (List.insertionSort aliasLenLe mapping) =
        some (extract text sp.start sp.stop) :=
    fun sp h => htags sp (hdperm.mem_iff.mp h)
  set msort := List.insertionSort aliasLenLe mapping with hms
  have hmperm : List.Perm msort mapping := List.perm_insertionSort _ _
  have hmsWF : ∀ kv ∈ msort, TagShape kv.1 ∧ '[' ∉ kv.2 :=
    fun kv h => hmap kv (hmperm.mem_iff.mp h)
  rw [maskFold_pieces ds text hdb hdsort hdsep]
  have hWF : ∀ p ∈ piecesOf text ds, PieceWF p := by
    refine piecesOf_WF ds text htext ?_
    intro sp h
    obtain ⟨t, h1, h2, -⟩ := hdt sp h
    exact ⟨t, h1, h2⟩
  rw [substFold_pieces msort (piecesOf text ds) hmsWF hWF]
  rw [substPieces_resolve msort (piecesOf text ds)]
  have hb2 : ∀ sp ∈ ds, sp.start < sp.stop ∧
      sp.stop ≤ (text.take text.length).length := by
    rw [List.take_length]
    exact hdb
  have ht2 : ∀ sp ∈ ds, ∃ t, sp.tag = some t ∧
      aget t msort = some (extract text sp.start sp.stop) := by
    intro sp h
    obtain ⟨t, h1, -, h3⟩ := hdt sp h
    exact ⟨t, h1, h3⟩
  have hfin := piecesOf_resolve text msort ds text.length hb2 hdsort hdsep ht2
  rw [List.take_length] at hfin
  exact hfin

/-! ## Claim C3: provenance of the output spans and of the mapping -/

theorem assignOne_keeps (st : AssignState) (s : Span) :
    spanKeeps (assignOne st s).2 s := by
  unfold assignOne assignKeyPath
  split_ifs
  · cases haget : aget (normalise_for_key "PERSON" s.original) st.personAlias with
    | none => exact ⟨rfl, rfl, rfl, rfl⟩
    | some tag => exact ⟨rfl, rfl, rfl, rfl⟩
  · exact ⟨rfl, rfl, rfl, rfl⟩

theorem assignLoop_keep : ∀ (spans : List Span) (st : AssignState)
    (acc l : List Span), List.Forall₂ spanKeeps acc l →
    List.Forall₂ spanKeeps ((spans.foldl assignStep (st, acc)).2) (l ++ spans)
  | [], st, acc, l, h => by simpa using h
  | s :: spans, st, acc, l, h => by
    show List.Forall₂ spanKeeps
      ((spans.foldl assignStep (assignStep (st, acc) s)).2) _
    have step : assignStep (st, acc) s =
        ((assignOne st s).1, acc ++ [(assignOne st s).2]) := rfl
    rw [step]
    have h2 : List.Forall₂ spanKeeps (acc ++ [(assignOne st s).2]) (l ++ [s]) :=
      List.rel_append h (List.Forall₂.cons (assignOne_keeps st s) List.Forall₂.nil)
    have h3 := assignLoop_keep spans (assignOne st s).1 _ _ h2
    simpa [List.append_assoc] using h3

theorem forall₂_keeps_mem_left {l₁ l₂ : List Span}
    (h : List.Forall₂ spanKeeps l₁ l₂) :
    ∀ x ∈ l₁, ∃ y ∈ l₂, spanKeeps x y := by
  induction h with
  | nil => intro x hx; cases hx
  | cons hab h ih =>
    intro x hx
    rcases List.mem_cons.mp hx with rfl | hx
    · exact ⟨_, List.mem_cons_self _ _, hab⟩
    · obtain ⟨y, hy, hxy⟩ := ih x hx
      exact ⟨y, List.mem_cons_of_mem _ hy, hxy⟩

theorem matchWBAt_bound {text pat : List Char} {i : Nat} (hp : pat ≠ [])
    (h : matchWBAt text pat i = true) : i + pat.length ≤ text.length := by
  unfold matchWBAt at h
  simp only [Bool.and_eq_true] at h
  have he := of_decide_eq_true h.1.1
  have hl : (lowerStr (extract text i (i + pat.length))).length = pat.length := by
    rw [he]
  unfold lowerStr extract at hl
  rw [List.length_map, List.length_take, List.length_drop] at hl
  rw [show i + pat.length - i = pat.length from by omega] at hl
  have hle : pat.length ≤ text.length - i := by
    rw [← hl]
    exact min_le_right _ _
  have hp1 : 1 ≤ pat.length := by
    cases pat with
    | nil => exact absurd rfl hp
    | cons a t => simp
  omega

theorem findWB_bounds (text pat : List Char) (hp : pat ≠ []) :
    ∀ (fuel i : Nat) (m : Nat × Nat), m ∈ findWB text pat i fuel →
      m.2 = m.1 + pat.length ∧ m.1 + pat.length ≤ text.length := by
  intro fuel
  induction fuel with
  | zero => intro i m h; exact absurd h (List.not_mem_nil m)
  | succ fuel ih =>
    intro i m h
    unfold findWB at h
    split_ifs at h with h1 h2
    · exact absurd h (List.not_mem_nil m)
    · rcases List.mem_cons.mp h with rfl | h
      · exact ⟨rfl, matchWBAt_bound hp h2⟩
      · exact ih _ m h
    · exact ih _ m h

theorem backfillFold_facts (text : List Char) (scores : List (List Char × ℚ))
    (tag : List Char) : ∀ (ms : List (Nat × Nat)) (sp : List Span) (x : Span),
    (∀ m ∈ ms, m.1 < m.2 ∧ m.2 ≤ text.length) →
    x ∈ ms.foldl (backfillStep text scores tag) sp →
    x ∈ sp ∨ (x.start < x.stop ∧ x.stop ≤ text.length ∧
      x.original = extract text x.start x.stop)
  | [], _, _, _, h => Or.inl h
  | m :: ms, sp, x, hms, h => by
    rcases backfillFold_facts text scores tag ms _ x
      (fun m' hm => hms m' (List.mem_cons_of_mem _ hm)) h with h | h
    · unfold backfillStep at h
      split_ifs at h
      · exact Or.inl h
      · rcases List.mem_append.mp h with h | h
        · exact Or.inl h
        · rw [List.mem_singleton] at h
          subst h
          obtain ⟨h1, h2⟩ := hms m (List.mem_cons_self _ _)
          exact Or.inr ⟨h1, h2, rfl⟩
    · exact Or.inr h

theorem backfill_facts :
    ∀ (items : List (List Char × List Char)) (text : List Char)
      (scores : List (List Char × ℚ)) (sp : List Span) (x : Span),
    x ∈ backfill text scores items sp →
    x ∈ sp ∨ (x.start < x.stop ∧ x.stop ≤ text.length ∧
      x.original = extract text x.start x.stop)
  | [], _, _, _, _, h => Or.inl h
  | (a0, t0) :: items, text, scores, sp, x, h => by
    unfold backfill at h
    split_ifs at h with hfil
    · exact backfill_facts items text scores sp x h
    · rcases backfill_facts items text scores _ x h with h | h
      · have ha0len : 3 ≤ a0.length := by
          by_contra hlt
          apply hfil
          simp only [Bool.or_eq_true, decide_eq_true_eq]
          left
          omega
        have ha0 : a0 ≠ [] := by
          intro he
          rw [he] at ha0len
          simp at ha0len
        have hms : ∀ m ∈ findWB text a0 0 (text.length + 1),
            m.1 < m.2 ∧ m.2 ≤ text.length := by
          intro m hm
          obtain ⟨hm1, hm2⟩ := findWB_bounds text a0 ha0 _ _ m hm
          constructor
          · rw [hm1]
            have : 1 ≤ a0.length := by omega
            omega
          · rw [hm1]
            exact hm2
        exact backfillFold_facts text scores t0 _ sp x hms h
      · exact Or.inr h

theorem mem_aset {α β : Type} [DecidableEq α] (k : α) (v : β) :
    ∀ (m : List (α × β)) (p : α × β), p ∈ aset k v m → p ∈ m ∨ p = (k, v)
  | [], p, h => Or.inr (List.mem_singleton.mp h)
  | (k0, v0) :: t, p, h => by
    unfold aset at h
    split_ifs at h with hk
    · rcases List.mem_cons.mp h with rfl | h
      · exact Or.inr rfl
      · exact Or.inl (List.mem_cons_of_mem _ h)
    · rcases List.mem_cons.mp h with rfl | h
      · exact Or.inl (List.mem_cons_self _ _)
      · rcases mem_aset k v t p h with h | h
        · exact Or.inl (List.mem_cons_of_mem _ h)
        · exact Or.inr h

theorem aset_keys_sub {α β : Type} [DecidableEq α] (k : α) (v : β)
    (m : List (α × β)) (x : α) (hx : x ∈ (aset k v m).map Prod.fst) :
    x ∈ m.map Prod.fst ∨ x = k := by
  rw [List.mem_map] at hx
  obtain ⟨p, hp, rfl⟩ := hx
  rcases mem_aset k v m p hp with h | h
  · exact Or.inl (List.mem_map.mpr ⟨p, h, rfl⟩)
  · exact Or.inr (by rw [h])

theorem aset_keys_nodup {α β : Type} [DecidableEq α] (k : α) (v : β) :
    ∀ (m : List (α × β)), (m.map Prod.fst).Nodup → ((aset k v m).map Prod.fst).Nodup
  | [], _ => by simp [aset]
  | (k0, v0) :: t, h => by
    unfold aset
    split_ifs with hk
    · rw [List.map_cons]
      rw [hk]
      simpa using h
    · rw [List.map_cons]
      rw [List.map_cons] at h
      rw [List.nodup_cons] at h ⊢
      obtain ⟨h1, h2⟩ := h
      refine ⟨?_, aset_keys_nodup k v t h2⟩
      intro hx
      rcases aset_keys_sub k v t k0 hx with hx | hx
      · exact h1 hx
      · exact hk hx.symm

theorem aget_none_iff {α β : Type} [DecidableEq α] (k : α) :
    ∀ (m : List (α × β)), aget k m = none ↔ k ∉ m.map Prod.fst
  | [] => by simp [aget]
  | (k0, v0) :: t => by
    unfold aget
    split_ifs with hk
    · simp [hk]
    · rw [aget_none_iff k t]
      simp [hk]

theorem mem_aget_of_nodup {α β : Type} [DecidableEq α] (k : α) (v : β) :
    ∀ (m : List (α × β)), (m.map Prod.fst).Nodup → (k, v) ∈ m → aget k m = some v
  | [], _, h => absurd h (List.not_mem_nil _)
  | (k0, v0) :: t, hnd, h => by
    rw [List.map_cons, List.nodup_cons] at hnd
    unfold aget
    split_ifs with hk
    · rcases List.mem_cons.mp h with he | hm
      · injection he with h1 h2
        rw [h2]
      · exfalso
        exact hnd.1 (by rw [← hk]; exact List.mem_map.mpr ⟨(k, v), hm, rfl⟩)
    · rcases List.mem_cons.mp h with he | hm
      · exfalso
        injection he with h1 h2
        exact hk h1
      · exact mem_aget_of_nodup k v t hnd.2 hm

theorem aget_perm {α β : Type} [DecidableEq α] (k : α) {m m' : List (α × β)}
    (hnd : (m.map Prod.fst).Nodup) (hp : List.Perm m m') :
    aget k m = aget k m' := by
  have hnd' : (m'.map Prod.fst).Nodup := ((hp.map Prod.fst).nodup_iff).mp hnd
  cases h : aget k m with
  | some v =>
    exact (mem_aget_of_nodup k v m' hnd' (hp.mem_iff.mp (aget_mem k v m h))).symm
  | none =>
    cases h' : aget k m' with
    | none => rfl
    | some v =>
      exfalso
      have hmm := aget_mem k v m' h'
      have hmem : (k, v) ∈ m := hp.mem_iff.mpr hmm
      rw [mem_aget_of_nodup k v m hnd hmem] at h
      cases h

theorem canon_bracketFree : ∀ l ∈ CANON_LABELS, ∀ c ∈ l.data, c ≠ '[' ∧ c ≠ ']' := by
  intro l hl
  fin_cases hl <;> decide

theorem mkTag_tagShape {L : String} {n : Nat}
    (hfree : ∀ c ∈ L.data, c ≠ '[' ∧ c ≠ ']') : TagShape (mkTag L n) := by
  refine ⟨L.toList ++ '_' :: natChars n, ?_, ?_, ?_⟩
  · simp [mkTag, List.append_assoc]
  · intro hm
    rcases List.mem_append.mp hm with hm | hm
    · exact (hfree '[' hm).1 rfl
    · rcases List.mem_cons.mp hm with he | hm
      · exact absurd he (by decide)
      · exact absurd ((natChars_digits n).1 '[' hm) (by decide)
  · intro hm
    rcases List.mem_append.mp hm with hm | hm
    · exact (hfree ']' hm).2 rfl
    · rcases List.mem_cons.mp hm with he | hm
      · exact absurd he (by decide)
      · exact absurd ((natChars_digits n).1 ']' hm) (by decide)

theorem extract_not_mem {text : List Char} {c : Char} (h : c ∉ text) (a b : Nat) :
    c ∉ extract text a b :=
  fun hm => h (List.drop_subset a text (List.take_subset _ _ hm))

theorem assignKeyPath_mapOK (text : List Char) (st : AssignState) (s : Span)
    (hlab : s.label ∈ CANON_LABELS)
    (horig : ∃ a b, b ≤ text.length ∧ s.original = extract text a b)
    (h : MapOK text st) : MapOK text (assignKeyPath st s).1 := by
  unfold assignKeyPath
  dsimp only
  cases hk : aget (s.label, normalise_for_key s.label s.original) st.valueToTag with
  | some t =>
    dsimp only
    split_ifs
    · exact h
    · exact h
  | none =>
    dsimp only
    split_ifs
    all_goals
      refine ⟨?_, aset_keys_nodup _ _ _ h.2⟩
    all_goals
      intro p hp
      rcases mem_aset _ _ _ p hp with hp | hp
      · exact h.1 p hp
      · rw [hp]
        exact ⟨⟨s.label, agetD s.label 0 st.counters + 1, by omega, rfl, hlab⟩, horig⟩

theorem assignOne_mapOK (text : List Char) (st : AssignState) (s : Span)
    (hlab : s.label ∈ CANON_LABELS)
    (horig : ∃ a b, b ≤ text.length ∧ s.original = extract text a b)
    (h : MapOK text st) : MapOK text (assignOne st s).1 := by
  unfold assignOne
  split_ifs with hp
  · cases ha : aget (normalise_for_key "PERSON" s.original) st.personAlias with
    | some tag => exact h
    | none => exact assignKeyPath_mapOK text st s hlab horig h
  · exact assignKeyPath_mapOK text st s hlab horig h

theorem assignLoop_mapOK (text : List Char) :
    ∀ (spans : List Span) (st : AssignState) (acc : List Span),
    (∀ s ∈ spans, s.label ∈ CANON_LABELS ∧
      ∃ a b, b ≤ text.length ∧ s.original = extract text a b) →
    MapOK text st → MapOK text (spans.foldl assignStep (st, acc)).1
  | [], st, acc, _, h => h
  | s :: spans, st, acc, hall, h => by
    show MapOK text (spans.foldl assignStep (assignStep (st, acc) s)).1
    have hstep : assignStep (st, acc) s =
        ((assignOne st s).1, acc ++ [(assignOne st s).2]) := rfl
    rw [hstep]
    exact assignLoop_mapOK text spans _ _
      (fun x hx => hall x (List.mem_cons_of_mem _ hx))
      (assignOne_mapOK text st s (hall s (List.mem_cons_self _ _)).1
        (hall s (List.mem_cons_self _ _)).2 h)

/-- The reconstruction theorem at the level of one rewriter input: a
bracket-free text, bounded pairwise-separated spans, a well-shaped
mapping with unique keys, and spans whose tags resolve in the mapping to
their own originals (which are slices of the text) round-trip exactly. -/
theorem assign_out_reconstruction (text : List Char)
    (mapping : List (List Char × List Char)) (allSpans : List Span)
    (htext : '[' ∉ text)
    (hmapOK : ∀ p ∈ mapping,
      (∃ L n, 1 ≤ n ∧ Prod.fst p = mkTag L n ∧ L ∈ CANON_LABELS) ∧
      (∃ a b, b ≤ text.length ∧ Prod.snd p = extract text a b))
    (hnd : (mapping.map Prod.fst).Nodup)
    (hb : ∀ sp ∈ allSpans, sp.start < sp.stop ∧ sp.stop ≤ text.length)
    (hsep : allSpans.Pairwise sepSpans)
    (horig : ∀ sp ∈ allSpans, sp.original = extract text sp.start sp.stop)
    (hfaith : ∀ sp ∈ allSpans, sp.tag.isSome = true ∧
      aget (sp.tag.getD []) mapping = some sp.original) :
    substTags mapping (rewriteMask text allSpans) = text := by
  apply subst_rewrite_eq text allSpans mapping htext hb hsep
  · intro kv hkv
    obtain ⟨⟨L, n, -, hfst, hL⟩, a, b, -, hsnd⟩ := hmapOK kv hkv
    refine ⟨?_, ?_⟩
    · rw [hfst]
      exact mkTag_tagShape (canon_bracketFree L hL)
    · rw [hsnd]
      exact extract_not_mem htext a b
  · intro sp hsp
    obtain ⟨hsome, hget⟩ := hfaith sp hsp
    obtain ⟨t, ht⟩ := Option.isSome_iff_exists.mp hsome
    have h1 : aget t mapping = some sp.original := by
      rw [ht] at hget
      exact hget
    refine ⟨t, ht, ?_, ?_⟩
    · have hmm := aget_mem t sp.original mapping h1
      obtain ⟨⟨L, n, -, hfst, hL⟩, -⟩ := hmapOK (t, sp.original) hmm
      rw [show Prod.fst ((t, sp.original) : List Char × List Char) = t from rfl] at hfst
      rw [hfst]
      exact mkTag_tagShape (canon_bracketFree L hL)
    · rw [← aget_perm t hnd (List.perm_insertionSort aliasLenLe mapping).symm]
      rw [h1, horig sp hsp]

/-! ## Claim C9: statement -/

/-- Claim C9: for every text and postcode match, if
`_expand_to_address_block` (at the default `max_lines=4`) returns offsets
`(s, e)`, then the block `text[s:e]` contains a UK-postcode match, at
least one digit and at least one comma, and is at most 260 characters
long; consequently every `UK_ADDRESS` span emitted by the postcode loop
of `extract_regex_spans_v1` carries an original block passing the same
four guardrails — when a guardrail fails, the expansion returns `None`
and no span is emitted for that postcode. -/
theorem C9_address_guardrails (text : List Char) (pcs : List (Nat × Nat))
    (i j s e : Nat) (h : _expand_to_address_block text i j 4 = some (s, e)) :
    (postcodeSearch (extract text s e) = true ∧
     (extract text s e).any isDigitChar = true ∧
     1 ≤ (extract text s e).count ',' ∧
     (extract text s e).length ≤ 260) ∧
    ∀ sp ∈ ukAddressSpansFor text pcs,
      postcodeSearch sp.original = true ∧
      sp.original.any isDigitChar = true ∧
      1 ≤ sp.original.count ',' ∧
      sp.original.length ≤ 260 := by
  refine ⟨expand_block_guardrails h, ?_⟩
  intro sp hsp
  exact ukAddressFold_guard text pcs ([], [])
    (fun sp hsp => absurd hsp (List.not_mem_nil sp)) sp hsp

/-- Claim C9, witness at the one-line address
`"12 High Street, London SW1A 1AA"` whose postcode match is `[23,31)`:
the expansion returns `(0, 31)` and the guardrails hold on the block. -/
theorem C9_witness :
    _expand_to_address_block "12 High Street, London SW1A 1AA".toList 23 31 4 =
      some (0, 31) ∧
    ((postcodeSearch (extract "12 High Street, London SW1A 1AA".toList 0 31) = true ∧
      (extract "12 High Street, London SW1A 1AA".toList 0 31).any isDigitChar = true ∧
      1 ≤ (extract "12 High Street, London SW1A 1AA".toList 0 31).count ',' ∧
      (extract "12 High Street, London SW1A 1AA".toList 0 31).length ≤ 260) ∧
     ∀ sp ∈ ukAddressSpansFor "12 High Street, London SW1A 1AA".toList [(23, 31)],
       postcodeSearch sp.original = true ∧
       sp.original.any isDigitChar = true ∧
       1 ≤ sp.original.count ',' ∧
       sp.original.length ≤ 260) :=
  ⟨rfl, C9_address_guardrails "12 High Street, London SW1A 1AA".toList [(23, 31)]
    23 31 0 31 rfl⟩

/-! ## Claim C3: statement -/

/-- Claim C3, counterexample: over `c3Text` (which contains the literal
substring `[PERSON_1]`) with the single PERSON span `c3Spans`, the span
over `"John"` is tagged `[PERSON_1]`, so the substitution of the claim
also rewrites the pre-existing literal `[PERSON_1]` of the text: the
reconstruction is shorter than the text and already differs at position
4, which lies outside every masked span region.  The claimed offset
validity therefore fails as stated. -/
theorem C3_counterexample :
    ¬ ((∀ sp ∈ (assign_tags_and_mask c3Text c3Spans).2.2.2,
        sp.original = extract c3Text sp.start sp.stop) ∧
       (substTags (assign_tags_and_mask c3Text c3Spans).2.1
          (assign_tags_and_mask c3Text c3Spans).1).length = c3Text.length ∧
       ∀ p, p < c3Text.length →
         (∀ sp ∈ (assign_tags_and_mask c3Text c3Spans).2.2.2,
            p < sp.start ∨ sp.stop ≤ p) →
         (substTags (assign_tags_and_mask c3Text c3Spans).2.1
            (assign_tags_and_mask c3Text c3Spans).1)[p]? = c3Text[p]?) := by
  intro h
  exact absurd (h.2.2 4 (by decide) (by decide)) (by decide)

/-- Claim C3 (amended): for a text containing no `[` and an input span
list that is pairwise non-overlapping, in bounds, canonically labelled
and faithfully captured (`original = text[start:stop]`), and whose run
is mapping-faithful — every output span's tag resolves in the returned
mapping to that span's own original (this can fail for alias-backfilled
spans and for case-variant duplicates, see the counterexample run of C1)
— every output span of `assign_tags_and_mask` still satisfies
`original = text[start:stop]`, and substituting each tag occurrence in
the masked text by `mapping[tag]` (longest tags first) reconstructs the
original text exactly — in particular the reconstruction agrees with the
text at every position outside the masked regions. -/
theorem C3_reconstruction (text : List Char) (spans : List Span)
    (htext : '[' ∉ text)
    (hwf : ∀ sp ∈ spans, sp.start < sp.stop ∧ sp.stop ≤ text.length)
    (hsep : spans.Pairwise sepSpans)
    (hcanon : ∀ sp ∈ spans, sp.label ∈ CANON_LABELS)
    (horig : ∀ sp ∈ spans, sp.original = extract text sp.start sp.stop)
    (hfaith : ∀ sp ∈ (assign_tags_and_mask text spans).2.2.2,
      sp.tag.isSome = true ∧
      aget (sp.tag.getD []) (assign_tags_and_mask text spans).2.1 =
        some sp.original) :
    (∀ sp ∈ (assign_tags_and_mask text spans).2.2.2,
      sp.original = extract text sp.start sp.stop) ∧
    substTags (assign_tags_and_mask text spans).2.1
      (assign_tags_and_mask text spans).1 = text := by
  unfold assign_tags_and_mask at hfaith ⊢
  dsimp only at hfaith ⊢
  set tp := spans.foldl assignStep
    ((⟨[], [], [], [], []⟩ : AssignState), ([] : List Span)) with htp
  have hkeep : List.Forall₂ spanKeeps tp.2 spans := by
    rw [htp]
    simpa using assignLoop_keep spans ⟨[], [], [], [], []⟩ [] [] List.Forall₂.nil
  have htagged_mem := forall₂_keeps_mem_left hkeep
  have htagged_pw : tp.2.Pairwise sepSpans := by
    refine pairwise_of_forall₂_extent ?_ hsep
    rw [htp]
    simpa using assignLoop_ext spans ⟨[], [], [], [], []⟩ [] [] List.Forall₂.nil
  have hMapOK : MapOK text tp.1 := by
    rw [htp]
    exact assignLoop_mapOK text spans _ _
      (fun s hs => ⟨hcanon s hs, s.start, s.stop, (hwf s hs).2, horig s hs⟩)
      ⟨fun p hp => absurd hp (List.not_mem_nil p), by simp⟩
  have hfacts : ∀ x ∈ tp.2, (x.start < x.stop ∧ x.stop ≤ text.length) ∧
      x.original = extract text x.start x.stop := by
    intro x hx
    obtain ⟨y, hy, hk1, hk2, hk3, hk4⟩ := htagged_mem x hx
    constructor
    · rw [hk1, hk2]
      exact hwf y hy
    · rw [hk4, hk1, hk2]
      exact horig y hy
  split_ifs at hfaith ⊢ with hpa
  · have hB_mem : ∀ x ∈ backfill text tp.1.scores
        (List.insertionSort aliasLenLe tp.1.personAlias) tp.2,
        (x.start < x.stop ∧ x.stop ≤ text.length) ∧
          x.original = extract text x.start x.stop := by
      intro x hx
      rcases backfill_facts _ text tp.1.scores tp.2 x hx with hx | ⟨h1, h2, h3⟩
      · exact hfacts x hx
      · exact ⟨⟨h1, h2⟩, h3⟩
    refine ⟨fun sp hsp => (hB_mem sp hsp).2, ?_⟩
    exact assign_out_reconstruction text tp.1.mapping _ htext hMapOK.1 hMapOK.2
      (fun sp hsp => (hB_mem sp hsp).1)
      (backfill_pairwise _ text tp.1.scores tp.2 htagged_pw)
      (fun sp hsp => (hB_mem sp hsp).2)
      hfaith
  · refine ⟨fun sp hsp => (hfacts sp hsp).2, ?_⟩
    exact assign_out_reconstruction text tp.1.mapping tp.2 htext hMapOK.1 hMapOK.2
      (fun sp hsp => (hfacts sp hsp).1) htagged_pw
      (fun sp hsp => (hfacts sp hsp).2) hfaith

/-- Claim C3, witness: the run over `c3wText` with its single
EMAIL_ADDRESS span satisfies every proviso, and the substitution
reconstructs the text exactly. -/
theorem C3_witness :
    (∀ sp ∈ (assign_tags_and_mask c3wText c3wSpans).2.2.2,
      sp.original = extract c3wText sp.start sp.stop) ∧
    substTags (assign_tags_and_mask c3wText c3wSpans).2.1
      (assign_tags_and_mask c3wText c3wSpans).1 = c3wText :=
  C3_reconstruction c3wText c3wSpans (by decide) (by decide)
    (List.pairwise_singleton _ _) (by decide) (by decide) (by decide)

end PII
